import Mathlib

/-!
Verification of the Othello rules engine and AI strategies
(src/lib/othelloRules.ts, src/lib/aiStrategies.ts, src/types/othello.types.ts).

The board is an 8x8 grid of cells, each empty or holding a disc of one of the
two players (source: `Player = 1 | 2`, `CellValue = Player | null`,
`Board = CellValue[][]`).  We embed a board as a total function
`Fin 8 → Fin 8 → Option Player`; out-of-range reads (which in the source are
guarded by `isValidPosition` before any access) are modelled by `bget`,
returning `none` outside the grid.  Coordinates are integers, as in the
source, where intermediate walk positions may leave the grid.
-/

/-- Source `Player = 1 | 2` (1 = Black, 2 = White). -/
inductive Player where
  | black : Player
  | white : Player
deriving DecidableEq, Repr

/-- Source `GameStatus = 'playing' | 'won' | 'draw'`. -/
inductive GameStatus where
  | playing : GameStatus
  | won : GameStatus
  | draw : GameStatus
deriving DecidableEq, Repr

/-- Source `GameMode = 'pvp' | 'pvc'`. -/
inductive GameMode where
  | pvp : GameMode
  | pvc : GameMode
deriving DecidableEq, Repr

/-- Source `Difficulty = 'easy' | 'medium' | 'hard'`. -/
inductive Difficulty where
  | easy : Difficulty
  | medium : Difficulty
  | hard : Difficulty
deriving DecidableEq, Repr

/-- Source `BOARD_SIZE = 8`. -/
def BOARD_SIZE : Int := 8

/-- An 8x8 board: each cell is empty (`none`) or holds a player's disc. -/
def Board : Type := Fin 8 → Fin 8 → Option Player

/-- Source `DIRECTIONS`: the 8 unit step vectors, in declaration order
NW, N, NE, W, E, SW, S, SE. -/
def DIRECTIONS : List (Int × Int) :=
  [(-1, -1), (-1, 0), (-1, 1), (0, -1), (0, 1), (1, -1), (1, 0), (1, 1)]

/-- Source `Move` (a played move recorded in the history). -/
structure Move where
  row : Int
  col : Int
  player : Player
deriving DecidableEq, Repr

/-- Source `ValidMove`: a legal cell with its flip count and flip list. -/
structure ValidMove where
  row : Int
  col : Int
  flipsCount : Nat
  flippedPositions : List (Int × Int)
deriving DecidableEq, Repr

/-- Result of source `countDiscs`. -/
structure DiscCount where
  black : Nat
  white : Nat
deriving DecidableEq, Repr

/-- Source `isValidPosition`. -/
def isValidPosition (row col : Int) : Bool :=
  0 ≤ row && row < 8 && 0 ≤ col && col < 8

/-- Reading `board[r][c]`: defined (= the stored cell) inside the grid and
`none` outside it.  The source only ever reads a cell after an
`isValidPosition` guard, so the out-of-range value is never observable. -/
def bget (b : Board) (row col : Int) : Option Player :=
  if h : 0 ≤ row ∧ row < 8 ∧ 0 ≤ col ∧ col < 8 then
    b ⟨row.toNat, by omega⟩ ⟨col.toNat, by omega⟩
  else none

/-- Writing `board[r][c] = v` (immutable update); out-of-range writes leave
the board unchanged (the source never performs one). -/
def setCell (b : Board) (row col : Int) (v : Option Player) : Board :=
  fun i j => if (i : Int) = row ∧ (j : Int) = col then v else b i j

/-- Source `getOpponent`. -/
def getOpponent (player : Player) : Player :=
  match player with
  | Player.black => Player.white
  | Player.white => Player.black

/-- Source `createEmptyBoard`. -/
def createEmptyBoard : Board := fun _ _ => none

/-- Source `createInitialBoard`: four centre discs, white at (3,3) and (4,4),
black at (3,4) and (4,3). -/
def createInitialBoard : Board :=
  setCell (setCell (setCell (setCell createEmptyBoard 3 3 (some Player.white))
    3 4 (some Player.black)) 4 3 (some Player.black)) 4 4 (some Player.white)

/-- The cells visited walking from (r, c) in unit steps of (dr, dc):
`ray dr dc n r c = [(r,c), (r+dr,c+dc), …]` of length `n`.  This is the
sequence of positions the `while` loop of source `checkDirection` visits. -/
def ray (dr dc : Int) : Nat → Int → Int → List (Int × Int)
  | 0, _, _ => []
  | n + 1, r, c => (r, c) :: ray dr dc n (r + dr) (c + dc)

/-- The `while` loop of source `checkDirection`: starting at (r, c), keep
collecting cells while they are on the board and hold an opponent disc;
return the collected cells together with the position where the walk
stopped.  `fuel` bounds the number of iterations; the source loop leaves
the 8-wide grid after at most 7 steps from any on-board start, so `fuel = 8`
(used below) never runs out before the loop condition fails. -/
def walkDir (b : Board) (opp : Player) (dr dc : Int) :
    Nat → Int → Int → (List (Int × Int) × Int × Int)
  | 0, r, c => ([], r, c)
  | n + 1, r, c =>
    if isValidPosition r c && (bget b r c == some opp) then
      let rest := walkDir b opp dr dc n (r + dr) (c + dc)
      ((r, c) :: rest.1, rest.2)
    else ([], r, c)

/-- Source `checkDirection`: walk outward accumulating opponent discs, then
keep the accumulation only if the walk stopped on a disc of the acting
player and is non-empty. -/
def checkDirection (b : Board) (row col : Int) (player : Player)
    (d : Int × Int) : List (Int × Int) :=
  let opp := getOpponent player
  let w := walkDir b opp d.1 d.2 8 (row + d.1) (col + d.2)
  if isValidPosition w.2.1 w.2.2 && (bget b w.2.1 w.2.2 == some player)
      && decide (0 < w.1.length) then
    w.1
  else []

/-- Source `getFlippedDiscs`. -/
def getFlippedDiscs (b : Board) (row col : Int) (player : Player) :
    List (Int × Int) :=
  if !isValidPosition row col || !(bget b row col == none) then []
  else DIRECTIONS.flatMap (fun d => checkDirection b row col player d)

/-- Source `isValidMove`. -/
def isValidMove (b : Board) (row col : Int) (player : Player) : Bool :=
  decide (0 < (getFlippedDiscs b row col player).length)

/-- Source `getValidMoves`: row-major double loop pushing each cell with a
non-empty flip list. -/
def getValidMoves (b : Board) (player : Player) : List ValidMove :=
  (List.range 8).foldl (fun (acc : List ValidMove) (row : Nat) =>
    (List.range 8).foldl (fun (acc2 : List ValidMove) (col : Nat) =>
      if 0 < (getFlippedDiscs b (row : Int) (col : Int) player).length then
        acc2 ++ [⟨(row : Int), (col : Int),
          (getFlippedDiscs b (row : Int) (col : Int) player).length,
          getFlippedDiscs b (row : Int) (col : Int) player⟩]
      else acc2) acc) []

/-- Source `executeMove`: unchanged board on a zero-flip move, otherwise
place the disc and flip all resolved cells. -/
def executeMove (b : Board) (row col : Int) (player : Player) : Board :=
  let flippedDiscs := getFlippedDiscs b row col player
  if flippedDiscs.length = 0 then b
  else
    flippedDiscs.foldl (fun nb q => setCell nb q.1 q.2 (some player))
      (setCell b row col (some player))

/-- Row-major list of the 64 cell coordinates, as visited by the source's
nested `for` loops. -/
def allCells : List (Int × Int) :=
  (List.range 8).flatMap (fun (r : Nat) =>
    (List.range 8).map (fun (c : Nat) => ((r : Int), (c : Int))))

/-- Source `countDiscs`. -/
def countDiscs (b : Board) : DiscCount :=
  ⟨(allCells.filter (fun q => bget b q.1 q.2 == some Player.black)).length,
   (allCells.filter (fun q => bget b q.1 q.2 == some Player.white)).length⟩

/-- Source `isBoardFull`. -/
def isBoardFull (b : Board) : Bool :=
  allCells.all (fun q => !(bget b q.1 q.2 == none))

/-- Source `isGameOver`: full board, or neither player has a valid move. -/
def isGameOver (b : Board) : Bool :=
  if isBoardFull b then true
  else
    let player1HasMoves := 0 < (getValidMoves b Player.black).length
    let player2HasMoves := 0 < (getValidMoves b Player.white).length
    !player1HasMoves && !player2HasMoves

/-- Source `getWinner`: strict disc majority, `none` on a tie. -/
def getWinner (b : Board) : Option Player :=
  let c := countDiscs b
  if c.white < c.black then some Player.black
  else if c.black < c.white then some Player.white
  else none

/-- Source `GameState` (fields relevant to the rules engine). -/
structure GameState where
  board : Board
  currentPlayer : Player
  status : GameStatus
  winner : Option Player
  mode : GameMode
  difficulty : Difficulty
  moveHistory : List Move
  lastMove : Option Move
  blackCount : Nat
  whiteCount : Nat
  validMoves : List ValidMove

/-- Source `makeMove`: executes the move, recomputes counts, appends to the
history, resolves the next player (opponent if they can move, else the same
player, irrelevant when neither can), and resolves game-over status and
winner. -/
def makeMove (currentState : GameState) (row col : Int) : GameState :=
  let board := currentState.board
  let currentPlayer := currentState.currentPlayer
  let moveHistory := currentState.moveHistory
  let newBoard := executeMove board row col currentPlayer
  let c := countDiscs newBoard
  let newMoveHistory := moveHistory ++ [⟨row, col, currentPlayer⟩]
  let opponent := getOpponent currentPlayer
  let opponentHasMoves := 0 < (getValidMoves newBoard opponent).length
  let currentPlayerHasMoves := 0 < (getValidMoves newBoard currentPlayer).length
  let nextPlayer :=
    if opponentHasMoves then opponent
    else if !currentPlayerHasMoves then currentPlayer
    else currentPlayer
  let gameOver := isGameOver newBoard
  let winner := if gameOver then getWinner newBoard else none
  { currentState with
    board := newBoard
    currentPlayer := nextPlayer
    status := if gameOver then
        (if winner = none then GameStatus.draw else GameStatus.won)
      else GameStatus.playing
    winner := winner
    lastMove := some ⟨row, col, currentPlayer⟩
    moveHistory := newMoveHistory
    blackCount := c.black
    whiteCount := c.white
    validMoves := getValidMoves newBoard nextPlayer }

/-- Source `simulateMove` (alias for `executeMove`, used by the AI). -/
def simulateMove (b : Board) (row col : Int) (player : Player) : Board :=
  executeMove b row col player

/-- Source `createInitialGameState` (src/lib/gameStateHelper.ts). -/
def createInitialGameState (mode : GameMode) (difficulty : Difficulty) :
    GameState :=
  let board := createInitialBoard
  let c := countDiscs board
  { board := board
    currentPlayer := Player.black
    status := GameStatus.playing
    winner := none
    mode := mode
    difficulty := difficulty
    moveHistory := []
    lastMove := none
    blackCount := c.black
    whiteCount := c.white
    validMoves := getValidMoves board Player.black }

/-!
AI strategies (src/lib/aiStrategies.ts).  Scores inside the search are JS
numbers that may be `±Infinity` (only as initial alpha/beta bounds), so they
are embedded as `WithBot (WithTop Int)`, integers extended with a bottom and
a top element.
-/

/-- Search scores: integers extended with `-Infinity` (`⊥`) and `+Infinity`
(`⊤`), as used for the alpha/beta bounds. -/
abbrev Score : Type := WithBot (WithTop Int)

/-- Embeds a finite score. -/
def toScore (n : Int) : Score := ((n : WithTop Int) : Score)

/-- The four corner cells, in the source's enumeration order. -/
def corners : List (Int × Int) := [(0, 0), (0, 7), (7, 0), (7, 7)]

/-- The four X-squares, each paired with its diagonally adjacent corner. -/
def xSquareList : List ((Int × Int) × (Int × Int)) :=
  [((1, 1), (0, 0)), ((1, 6), (0, 7)), ((6, 1), (7, 0)), ((6, 6), (7, 7))]

/-- The eight C-squares, each paired with its adjacent corner. -/
def cSquareList : List ((Int × Int) × (Int × Int)) :=
  [((0, 1), (0, 0)), ((1, 0), (0, 0)), ((0, 6), (0, 7)), ((1, 7), (0, 7)),
   ((6, 0), (7, 0)), ((7, 1), (7, 0)), ((7, 6), (7, 7)), ((6, 7), (7, 7))]

/-- The sixteen non-corner, non-C-square edge cells, in the iteration order
of the evaluator's edge loop (`for i = 2..5`: top, bottom, left, right). -/
def edgeCells : List (Int × Int) :=
  (List.range 4).flatMap (fun (k : Nat) =>
    [(0, (k : Int) + 2), (7, (k : Int) + 2), ((k : Int) + 2, 0), ((k : Int) + 2, 7)])

/-- Accumulation pattern of the evaluator's corner and edge loops:
`+amount` per own disc and `-amount` per opponent disc over the given
cells. -/
def sidedScore (b : Board) (player : Player) (amount : Int)
    (cells : List (Int × Int)) : Int :=
  cells.foldl (fun s q =>
    if bget b q.1 q.2 == some player then s + amount
    else if bget b q.1 q.2 == some (getOpponent player) then s - amount
    else s) 0

/-- Accumulation pattern of the evaluator's X-square and C-square loops:
`-amount` per own disc and `+amount` per opponent disc on the listed cells,
counted only while the paired corner is still empty. -/
def cornerAdjacentPenalty (b : Board) (player : Player) (amount : Int)
    (pairs : List ((Int × Int) × (Int × Int))) : Int :=
  pairs.foldl (fun s pr =>
    if bget b pr.2.1 pr.2.2 == none then
      (if bget b pr.1.1 pr.1.2 == some player then s - amount
       else if bget b pr.1.1 pr.1.2 == some (getOpponent player) then s + amount
       else s)
    else s) 0

/-- Source `evaluateBoard`: corners 100, X-squares -25 and C-squares -20
under an empty corner, edges 5, mobility times 2, disc difference times 1. -/
def evaluateBoard (b : Board) (player : Player) : Int :=
  let opponent := getOpponent player
  let cornerTerm := sidedScore b player 100 corners
  let xTerm := cornerAdjacentPenalty b player 25 xSquareList
  let cTerm := cornerAdjacentPenalty b player 20 cSquareList
  let edgeTerm := sidedScore b player 5 edgeCells
  let mobility :=
    (((getValidMoves b player).length : Int)
      - ((getValidMoves b opponent).length : Int)) * 2
  let c := countDiscs b
  let discTerm : Int :=
    match player with
    | Player.black => (c.black : Int) - (c.white : Int)
    | Player.white => (c.white : Int) - (c.black : Int)
  cornerTerm + xTerm + cTerm + edgeTerm + mobility + discTerm

/-- Source `getMovePriority` (inside `orderMovesByPreference`): corners 1000,
edges 500, X-squares next to an empty corner -100, otherwise a centre score
falling off linearly with distance from the board centre. -/
def getMovePriority (b : Board) (m : ValidMove) : Int :=
  if (m.row = 0 ∧ m.col = 0) ∨ (m.row = 0 ∧ m.col = 7)
      ∨ (m.row = 7 ∧ m.col = 0) ∨ (m.row = 7 ∧ m.col = 7) then 1000
  else if m.row = 0 ∨ m.row = 7 ∨ m.col = 0 ∨ m.col = 7 then 500
  else if (m.row = 1 ∧ m.col = 1 ∧ bget b 0 0 = none)
      ∨ (m.row = 1 ∧ m.col = 6 ∧ bget b 0 7 = none)
      ∨ (m.row = 6 ∧ m.col = 1 ∧ bget b 7 0 = none)
      ∨ (m.row = 6 ∧ m.col = 6 ∧ bget b 7 7 = none) then -100
  else 100 - (|m.row - 4| + |m.col - 4|) * 10

/-- Stable insertion (descending by `key`): the new element goes in front of
the first element whose key is not larger.  `Array.prototype.sort` with
comparator `(a, b) => key(b) - key(a)` is specified to be stable, so it is
modelled by stable insertion sort, which produces the same output. -/
def insertByDesc (key : α → Int) (x : α) : List α → List α
  | [] => [x]
  | y :: ys => if key y ≤ key x then x :: y :: ys else y :: insertByDesc key x ys

/-- Stable descending sort by `key` (model of `Array.prototype.sort` with a
descending numeric comparator). -/
def sortDescBy (key : α → Int) (l : List α) : List α :=
  l.foldr (insertByDesc key) []

/-- Source `orderMovesByPreference`. -/
def orderMovesByPreference (moves : List ValidMove) (b : Board) :
    List ValidMove :=
  sortDescBy (fun m => getMovePriority b m) moves

/-- The maximizing loop of source `minimax`: fold over the ordered moves
keeping the running `maxScore` and `alpha`, breaking on `beta <= alpha`. -/
def abMaxLoop (eval : ValidMove → Score → Score) (beta : Score) :
    List ValidMove → Score → Score → Score
  | [], maxScore, _ => maxScore
  | m :: rest, maxScore, alpha =>
    let score := eval m alpha
    let maxScore2 := max maxScore score
    let alpha2 := max alpha score
    if beta ≤ alpha2 then maxScore2
    else abMaxLoop eval beta rest maxScore2 alpha2

/-- The minimizing loop of source `minimax`. -/
def abMinLoop (eval : ValidMove → Score → Score) (alpha : Score) :
    List ValidMove → Score → Score → Score
  | [], minScore, _ => minScore
  | m :: rest, minScore, beta =>
    let score := eval m beta
    let minScore2 := min minScore score
    let beta2 := min beta score
    if beta2 ≤ alpha then minScore2
    else abMinLoop eval alpha rest minScore2 beta2

/-- Source `minimax`: depth-limited alpha-beta search.  Terminal boards are
scored `±(10000 + remaining depth)`, a zero-depth cutoff uses the static
evaluator, a side with no moves passes (one fewer ply, sides swapped), and
each node searches its moves in `orderMovesByPreference` order with standard
alpha-beta cutoffs. -/
def minimax (aiPlayer : Player) (depth : Nat) (b : Board)
    (alpha beta : Score) (isMaximizing : Bool) : Score :=
  let opponent := getOpponent aiPlayer
  if isGameOver b then
    match getWinner b with
    | some w =>
      if w = aiPlayer then toScore (10000 + (depth : Int))
      else if w = opponent then toScore (-10000 - (depth : Int))
      else toScore 0
    | none => toScore 0
  else
    match depth with
    | 0 => toScore (evaluateBoard b aiPlayer)
    | d + 1 =>
      let currentPlayer := if isMaximizing then aiPlayer else opponent
      let validMoves := getValidMoves b currentPlayer
      if validMoves.length = 0 then
        minimax aiPlayer d b alpha beta (!isMaximizing)
      else
        let orderedMoves := orderMovesByPreference validMoves b
        if isMaximizing then
          abMaxLoop
            (fun m a =>
              minimax aiPlayer d (simulateMove b m.row m.col aiPlayer)
                a beta false)
            beta orderedMoves ⊥ alpha
        else
          abMinLoop
            (fun m bt =>
              minimax aiPlayer d (simulateMove b m.row m.col opponent)
                alpha bt true)
            alpha orderedMoves ⊤ beta

/-- The root loop of source `getMinimaxMove`: keep the first move whose
score strictly exceeds the running best (initially `-Infinity`). -/
def bestLoop (eval : ValidMove → Score) :
    List ValidMove → Option (Int × Int) → Score → Option (Int × Int)
  | [], bestMove, _ => bestMove
  | m :: rest, bestMove, bestScore =>
    let score := eval m
    if bestScore < score then bestLoop eval rest (some (m.row, m.col)) score
    else bestLoop eval rest bestMove bestScore

/-- Source `getMinimaxMove`: 6-ply search; each root child is searched with
a full alpha-beta window.  The source's `bestMove || validMoves[0]` fallback
is the `<|>`; `none` corresponds to the crash on an empty move list. -/
def getMinimaxMove (b : Board) (player : Player)
    (validMoves : List ValidMove) : Option (Int × Int) :=
  let orderedMoves := orderMovesByPreference validMoves b
  let best := bestLoop
    (fun m => minimax player 5 (simulateMove b m.row m.col player) ⊥ ⊤ false)
    orderedMoves none ⊥
  best <|> (validMoves.head?.map (fun m => (m.row, m.col)))

/-- Source `getGreedyMove`: corner first, then drop unsafe X-square moves
(unless that empties the candidate set), then best edge move by flips, then
best move by flips.  `none` corresponds to the source's crash on an empty
move list. -/
def getGreedyMove (b : Board) (validMoves : List ValidMove) :
    Option (Int × Int) :=
  let cornerMove := corners.findSome? (fun c =>
    validMoves.find? (fun m => m.row == c.1 && m.col == c.2))
  match cornerMove with
  | some m => some (m.row, m.col)
  | none =>
    let safeXSquares := xSquareList.filter (fun xs =>
      !(bget b xs.2.1 xs.2.2 == none))
    let nonXSquareMoves := validMoves.filter (fun m =>
      let isXSquare := xSquareList.any (fun xs =>
        xs.1.1 == m.row && xs.1.2 == m.col)
      let isSafeXSquare := safeXSquares.any (fun xs =>
        xs.1.1 == m.row && xs.1.2 == m.col)
      !isXSquare || isSafeXSquare)
    let movesToConsider :=
      if 0 < nonXSquareMoves.length then nonXSquareMoves else validMoves
    let edgeMoves := movesToConsider.filter (fun m =>
      (m.row == 0 || m.row == 7 || m.col == 0 || m.col == 7)
        && !(corners.any (fun c => c.1 == m.row && c.2 == m.col)))
    if 0 < edgeMoves.length then
      (sortDescBy (fun m => (m.flipsCount : Int)) edgeMoves).head?.map
        (fun m => (m.row, m.col))
    else
      (sortDescBy (fun m => (m.flipsCount : Int)) movesToConsider).head?.map
        (fun m => (m.row, m.col))

/-- Source `getAIMove`: throws when the side has no legal move, otherwise
dispatches on the difficulty.  The easy strategy's `Math.random()` draw is
modelled by an arbitrary natural number reduced mod the move count (the
source computes `Math.floor(Math.random() * length)`, an arbitrary in-range
index).  A JS crash (out-of-range access) is modelled as an error; the
theorems below show those branches are unreachable. -/
def getAIMove (b : Board) (player : Player) (difficulty : Difficulty)
    (randIdx : Nat) : Except String (Int × Int) :=
  let validMoves := getValidMoves b player
  if validMoves.length = 0 then
    Except.error ("No valid moves available for AI")
  else
    match difficulty with
    | Difficulty.easy =>
      match validMoves[randIdx % validMoves.length]? with
      | some m => Except.ok (m.row, m.col)
      | none => Except.error ("index out of range")
    | Difficulty.medium =>
      match getGreedyMove b validMoves with
      | some mv => Except.ok mv
      | none => Except.error ("no candidate move")
    | Difficulty.hard =>
      match getMinimaxMove b player validMoves with
      | some mv => Except.ok mv
      | none => Except.error ("no candidate move")

/-!
Specification-side definitions.  Each follows the wording of spec.md (or of
the claim being checked), to be compared with the code-side definitions
above.
-/

/-- Per the spec (§4.1): the walk's accumulated run of opposing discs in
direction d — the maximal contiguous sequence of on-board opponent discs
starting adjacent to (row, col).  `takeWhile` over the first 8 steps of the
ray is maximal: from an on-board start the ray leaves the 8-wide grid within
8 steps, so the walk's condition fails at or before step 8. -/
def dirOppRun (b : Board) (player : Player) (row col : Int)
    (d : Int × Int) : List (Int × Int) :=
  (ray d.1 d.2 8 (row + d.1) (col + d.2)).takeWhile (fun q =>
    isValidPosition q.1 q.2 && (bget b q.1 q.2 == some (getOpponent player)))

/-- Per the spec (§4.1): the run is kept only when it is non-empty and the
cell just past it holds a disc of the acting side (a genuine sandwich);
termination by an empty cell or the board edge discards it entirely. -/
def specDirFlips (b : Board) (player : Player) (row col : Int)
    (d : Int × Int) : List (Int × Int) :=
  let run := dirOppRun b player row col d
  let n : Int := run.length
  if 0 < run.length
      ∧ isValidPosition (row + (n + 1) * d.1) (col + (n + 1) * d.2) = true
      ∧ bget b (row + (n + 1) * d.1) (col + (n + 1) * d.2) = some player then
    run
  else []

/-- Per the spec (§4.2): scan the cells in row-major order and emit each
cell whose flip list is non-empty, with its flip count and flip list. -/
def specValidMoves (b : Board) (player : Player) : List ValidMove :=
  allCells.filterMap (fun q =>
    let f := getFlippedDiscs b q.1 q.2 player
    if f ≠ [] then some ⟨q.1, q.2, f.length, f⟩ else none)

/-- Modelled from the spec (claim C6): a plain, unpruned minimax over the
same rules — terminal scores `±(10000 + remaining depth)`, static evaluation
at depth zero, forced-pass recursion, and the exact maximum/minimum over all
children with no alpha-beta window and no move reordering. -/
def plainMinimax (aiPlayer : Player) (depth : Nat) (b : Board)
    (isMaximizing : Bool) : Score :=
  let opponent := getOpponent aiPlayer
  if isGameOver b then
    match getWinner b with
    | some w =>
      if w = aiPlayer then toScore (10000 + (depth : Int))
      else if w = opponent then toScore (-10000 - (depth : Int))
      else toScore 0
    | none => toScore 0
  else
    match depth with
    | 0 => toScore (evaluateBoard b aiPlayer)
    | d + 1 =>
      let currentPlayer := if isMaximizing then aiPlayer else opponent
      let validMoves := getValidMoves b currentPlayer
      if validMoves.length = 0 then
        plainMinimax aiPlayer d b (!isMaximizing)
      else if isMaximizing then
        (validMoves.map (fun m =>
          plainMinimax aiPlayer d (simulateMove b m.row m.col aiPlayer)
            false)).foldr max ⊥
      else
        (validMoves.map (fun m =>
          plainMinimax aiPlayer d (simulateMove b m.row m.col opponent)
            true)).foldr min ⊤

/-- The first element of the list attaining the maximal key (ties broken by
list order); `none` on the empty list. -/
def firstMaxBy [LinearOrder β] (key : α → β) : List α → Option α
  | [] => none
  | x :: xs =>
    match firstMaxBy key xs with
    | none => some x
    | some y => if key x < key y then some y else some x

/-- Modelled from the spec (claim C6): the move a plain unpruned, unordered
depth-6 minimax selects — the first move of `getValidMoves` (enumeration
order) attaining the maximal depth-5 child value. -/
def plainMinimaxMove (b : Board) (player : Player) : Option (Int × Int) :=
  (firstMaxBy (fun m =>
      plainMinimax player 5 (simulateMove b m.row m.col player) false)
    (getValidMoves b player)).map (fun m => (m.row, m.col))

/-- The root selection the pruned search actually computes: the first move,
in `orderMovesByPreference` order, attaining the maximal plain depth-5 child
value. -/
def minimaxSpecSelect (b : Board) (player : Player)
    (validMoves : List ValidMove) : Option (Int × Int) :=
  (firstMaxBy (fun m =>
      plainMinimax player 5 (simulateMove b m.row m.col player) false)
    (orderMovesByPreference validMoves b)).map (fun m => (m.row, m.col))

/-- Per the spec (§4.4, greedy policy): the four-tier deterministic cascade.
Tier 1: first legal corner in fixed corner order.  Tier 2: discard
candidates on an X-square whose diagonally adjacent corner is still empty,
unless that discards everything.  Tier 3: a non-corner edge move of maximal
flip count, if any edge move remains.  Tier 4: the remaining candidate of
maximal flip count, ties broken by enumeration order. -/
def specGreedyMove (b : Board) (validMoves : List ValidMove) :
    Option (Int × Int) :=
  match corners.findSome? (fun c =>
      validMoves.find? (fun m => m.row == c.1 && m.col == c.2)) with
  | some m => some (m.row, m.col)
  | none =>
    let kept := validMoves.filter (fun m =>
      !(xSquareList.any (fun xs =>
        xs.1.1 == m.row && xs.1.2 == m.col && (bget b xs.2.1 xs.2.2 == none))))
    let candidates := if kept = [] then validMoves else kept
    let edges := candidates.filter (fun m =>
      (m.row == 0 || m.row == 7 || m.col == 0 || m.col == 7)
        && !(corners.any (fun c => c.1 == m.row && c.2 == m.col)))
    match firstMaxBy (fun m => (m.flipsCount : Int)) edges with
    | some m => some (m.row, m.col)
    | none =>
      (firstMaxBy (fun m => (m.flipsCount : Int)) candidates).map
        (fun m => (m.row, m.col))

/-!
Lemmas about the direction walk.
-/

theorem walkDir_eq_takeWhile (b : Board) (opp : Player) (dr dc : Int) :
    ∀ (fuel : Nat) (r c : Int),
      walkDir b opp dr dc fuel r c =
        ((ray dr dc fuel r c).takeWhile (fun q =>
            isValidPosition q.1 q.2 && (bget b q.1 q.2 == some opp)),
          r + ((ray dr dc fuel r c).takeWhile (fun q =>
            isValidPosition q.1 q.2 && (bget b q.1 q.2 == some opp))).length * dr,
          c + ((ray dr dc fuel r c).takeWhile (fun q =>
            isValidPosition q.1 q.2 && (bget b q.1 q.2 == some opp))).length * dc) := by
  intro fuel
  induction fuel with
  | zero => intro r c; simp [walkDir, ray]
  | succ n ih =>
    intro r c
    simp only [walkDir, ray, List.takeWhile_cons]
    by_cases h : (isValidPosition r c && (bget b r c == some opp)) = true
    · simp only [h, if_true, ih (r + dr) (c + dc)]
      simp only [List.length_cons, Prod.mk.injEq]
      refine ⟨trivial, ?_, ?_⟩ <;> (try push_cast) <;> ring
    · simp only [Bool.not_eq_true] at h
      simp [h]

theorem mem_ray {dr dc : Int} :
    ∀ {n : Nat} {r c : Int} {q : Int × Int},
      q ∈ ray dr dc n r c ↔ ∃ k : Nat, k < n ∧ q = (r + k * dr, c + k * dc) := by
  intro n
  induction n with
  | zero => intro r c q; simp [ray]
  | succ m ih =>
    intro r c q
    simp only [ray, List.mem_cons, ih]
    constructor
    · rintro (rfl | ⟨k, hk, rfl⟩)
      · exact ⟨0, by omega, by simp⟩
      · refine ⟨k + 1, by omega, ?_⟩
        rw [Prod.ext_iff]
        constructor <;> (try push_cast) <;> ring
    · rintro ⟨k, hk, rfl⟩
      match k with
      | 0 => left; simp
      | k + 1 =>
        right
        refine ⟨k, by omega, ?_⟩
        rw [Prod.ext_iff]
        constructor <;> (try push_cast) <;> ring

theorem takeWhile_ray_eq_ray (P : Int × Int → Bool) (dr dc : Int) :
    ∀ (n : Nat) (r c : Int),
      (ray dr dc n r c).takeWhile P =
        ray dr dc ((ray dr dc n r c).takeWhile P).length r c := by
  intro n
  induction n with
  | zero => intro r c; simp [ray]
  | succ m ih =>
    intro r c
    simp only [ray, List.takeWhile_cons]
    by_cases h : P (r, c) = true
    · simp only [h, if_true, List.length_cons, ray]
      rw [← ih (r + dr) (c + dc)]
    · simp [h, ray]

theorem checkDirection_eq_spec (b : Board) (row col : Int) (player : Player)
    (d : Int × Int) :
    checkDirection b row col player d = specDirFlips b player row col d := by
  simp only [checkDirection, specDirFlips, dirOppRun, walkDir_eq_takeWhile]
  set run := (ray d.1 d.2 8 (row + d.1) (col + d.2)).takeWhile (fun q =>
    isValidPosition q.1 q.2 && (bget b q.1 q.2 == some (getOpponent player)))
    with hrun
  have harith1 : row + d.1 + (run.length : Int) * d.1
      = row + ((run.length : Int) + 1) * d.1 := by ring
  have harith2 : col + d.2 + (run.length : Int) * d.2
      = col + ((run.length : Int) + 1) * d.2 := by ring
  simp only [harith1, harith2]
  by_cases h1 : isValidPosition (row + ((run.length : Int) + 1) * d.1)
      (col + ((run.length : Int) + 1) * d.2) = true
  · by_cases h2 : bget b (row + ((run.length : Int) + 1) * d.1)
        (col + ((run.length : Int) + 1) * d.2) = some player
    · by_cases h3 : 0 < run.length
      · simp [h1, h2, h3]
      · simp [h1, h2, h3]
    · have h2' : (bget b (row + ((run.length : Int) + 1) * d.1)
          (col + ((run.length : Int) + 1) * d.2) == some player) = false := by
        simp [h2]
      simp [h1, h2, h2']
  · have h1' : isValidPosition (row + ((run.length : Int) + 1) * d.1)
        (col + ((run.length : Int) + 1) * d.2) = false := by
      simpa using h1
    simp [h1, h1']

/-- Claim C1: for every board, cell and side, `getFlippedDiscs` returns the
empty list when the target is off-board or occupied, and otherwise returns
exactly the concatenation, over the 8 unit directions, of the maximal run of
contiguous opposing discs adjacent to the target in that direction, a run
being kept only when it is non-empty and terminated by a disc of the acting
side (`specDirFlips`), with nothing contributed otherwise. -/
theorem c1_flip_resolver (b : Board) (row col : Int) (player : Player) :
    getFlippedDiscs b row col player =
      if isValidPosition row col && (bget b row col == none) then
        (DIRECTIONS.map (specDirFlips b player row col)).flatten
      else [] := by
  unfold getFlippedDiscs
  by_cases h : (isValidPosition row col && (bget b row col == none)) = true
  · have h1 : isValidPosition row col = true := by
      simp only [Bool.and_eq_true] at h; exact h.1
    have h2 : (bget b row col == none) = true := by
      simp only [Bool.and_eq_true] at h; exact h.2
    simp only [h, h1, h2, Bool.not_true, Bool.or_self, Bool.false_or, if_true]
    rw [if_neg (by simp)]
    rw [List.flatMap_def]
    congr 1
    exact List.map_congr_left (fun d _ => checkDirection_eq_spec b row col player d)
  · have h' : (!isValidPosition row col || !(bget b row col == none)) = true := by
      simp only [Bool.and_eq_true, not_and_or, Bool.not_eq_true] at h
      rcases h with h | h <;> simp [h]
    simp [h, h']

/-!
The move enumerator.
-/

theorem getValidMoves_eq_spec (b : Board) (player : Player) :
    getValidMoves b player = specValidMoves b player := by
  have inner : ∀ (cols : List Nat) (row : Nat) (acc : List ValidMove),
      cols.foldl (fun (acc2 : List ValidMove) (col : Nat) =>
        if 0 < (getFlippedDiscs b (row : Int) (col : Int) player).length then
          acc2 ++ [⟨(row : Int), (col : Int),
            (getFlippedDiscs b (row : Int) (col : Int) player).length,
            getFlippedDiscs b (row : Int) (col : Int) player⟩]
        else acc2) acc
      = acc ++ cols.flatMap (fun col =>
          if 0 < (getFlippedDiscs b (row : Int) (col : Int) player).length then
            [⟨(row : Int), (col : Int),
              (getFlippedDiscs b (row : Int) (col : Int) player).length,
              getFlippedDiscs b (row : Int) (col : Int) player⟩]
          else []) := by
    intro cols
    induction cols with
    | nil => intro row acc; simp
    | cons hd tl ih =>
      intro row acc
      simp only [List.foldl_cons, List.flatMap_cons]
      by_cases h : 0 < (getFlippedDiscs b (row : Int) (hd : Int) player).length
      · rw [if_pos h, if_pos h, ih, List.append_assoc]
      · rw [if_neg h, if_neg h, ih]
        simp
  have outer : ∀ (rows : List Nat) (acc : List ValidMove),
      rows.foldl (fun (acc : List ValidMove) (row : Nat) =>
        (List.range 8).foldl (fun (acc2 : List ValidMove) (col : Nat) =>
          if 0 < (getFlippedDiscs b (row : Int) (col : Int) player).length then
            acc2 ++ [⟨(row : Int), (col : Int),
              (getFlippedDiscs b (row : Int) (col : Int) player).length,
              getFlippedDiscs b (row : Int) (col : Int) player⟩]
          else acc2) acc) acc
      = acc ++ rows.flatMap (fun (row : Nat) =>
          (List.range 8).flatMap (fun (col : Nat) =>
          if 0 < (getFlippedDiscs b (row : Int) (col : Int) player).length then
            [⟨(row : Int), (col : Int),
              (getFlippedDiscs b (row : Int) (col : Int) player).length,
              getFlippedDiscs b (row : Int) (col : Int) player⟩]
          else [])) := by
    intro rows
    induction rows with
    | nil => intro acc; simp
    | cons hd tl ih =>
      intro acc
      simp only [List.foldl_cons, List.flatMap_cons]
      rw [inner (List.range 8) hd acc, ih, List.append_assoc]
  have hspec : specValidMoves b player
      = (List.range 8).flatMap (fun (row : Nat) =>
          (List.range 8).flatMap (fun (col : Nat) =>
          if 0 < (getFlippedDiscs b (row : Int) (col : Int) player).length then
            [(⟨(row : Int), (col : Int),
              (getFlippedDiscs b (row : Int) (col : Int) player).length,
              getFlippedDiscs b (row : Int) (col : Int) player⟩ : ValidMove)]
          else [])) := by
    unfold specValidMoves allCells
    rw [List.filterMap_flatMap]
    congr 1
    funext row
    rw [List.filterMap_map, List.filterMap_eq_flatMap_toList]
    congr 1
    funext col
    simp only [Function.comp_apply]
    by_cases h : getFlippedDiscs b (row : Int) (col : Int) player = []
    · simp [h]
    · have h' : 0 < (getFlippedDiscs b (row : Int) (col : Int) player).length :=
        List.length_pos.mpr h
      simp [h, h']
  unfold getValidMoves
  rw [outer (List.range 8) [], hspec]
  simp

theorem mem_allCells {q : Int × Int} :
    q ∈ allCells ↔ isValidPosition q.1 q.2 = true := by
  obtain ⟨x, y⟩ := q
  constructor
  · intro hq
    obtain ⟨r, hr, hq2⟩ := List.mem_flatMap.mp hq
    obtain ⟨c, hc, hqe⟩ := List.mem_map.mp hq2
    have hr' := List.mem_range.mp hr
    have hc' := List.mem_range.mp hc
    rw [Prod.mk.injEq] at hqe
    unfold isValidPosition
    simp only [Bool.and_eq_true, decide_eq_true_eq]
    omega
  · intro h
    unfold isValidPosition at h
    simp only [Bool.and_eq_true, decide_eq_true_eq] at h
    refine List.mem_flatMap.mpr ⟨x.toNat, List.mem_range.mpr (by omega), ?_⟩
    refine List.mem_map.mpr ⟨y.toNat, List.mem_range.mpr (by omega), ?_⟩
    rw [Prod.mk.injEq]
    constructor <;> omega

theorem getFlippedDiscs_invalid (b : Board) (row col : Int) (player : Player)
    (h : isValidPosition row col = false) :
    getFlippedDiscs b row col player = [] := by
  unfold getFlippedDiscs
  simp [h]

theorem getValidMoves_eq_nil_iff (b : Board) (player : Player) :
    getValidMoves b player = []
      ↔ ∀ row col : Int, getFlippedDiscs b row col player = [] := by
  rw [getValidMoves_eq_spec]
  unfold specValidMoves
  rw [List.filterMap_eq_nil_iff]
  constructor
  · intro h row col
    by_cases hv : isValidPosition row col = true
    · have hm : ((row, col) : Int × Int) ∈ allCells := mem_allCells.mpr hv
      have := h _ hm
      simp only at this
      by_cases he : getFlippedDiscs b row col player = []
      · exact he
      · simp [he] at this
    · exact getFlippedDiscs_invalid b row col player (by simpa using hv)
  · intro h q _
    simp only [h q.1 q.2]
    simp

/-- Claim C2: `getValidMoves` scans the cells in row-major order and returns
exactly those whose flip list is non-empty, each with `flipsCount` the
length of the flip list and `flippedPositions` the flip list itself
(`specValidMoves`), and returns the empty list exactly when the side has no
legal move anywhere. -/
theorem c2_move_enumerator (b : Board) (player : Player) :
    getValidMoves b player = specValidMoves b player
      ∧ (getValidMoves b player = []
          ↔ ∀ row col : Int, getFlippedDiscs b row col player = []) :=
  ⟨getValidMoves_eq_spec b player, getValidMoves_eq_nil_iff b player⟩

/-!
The turn engine.
-/

theorem getFlippedDiscs_occupied (b : Board) (row col : Int) (player : Player)
    (h : bget b row col ≠ none) : getFlippedDiscs b row col player = [] := by
  unfold getFlippedDiscs
  have h' : (bget b row col == none) = false := by
    simp [h]
  simp [h']

theorem isBoardFull_no_moves (b : Board) (player : Player)
    (h : isBoardFull b = true) : getValidMoves b player = [] := by
  rw [getValidMoves_eq_nil_iff]
  intro row col
  by_cases hv : isValidPosition row col = true
  · have hm : ((row, col) : Int × Int) ∈ allCells := mem_allCells.mpr hv
    unfold isBoardFull at h
    rw [List.all_eq_true] at h
    have := h _ hm
    simp only [Bool.not_eq_true'] at this
    apply getFlippedDiscs_occupied
    simp only [beq_eq_false_iff_ne, ne_eq] at this
    exact this
  · exact getFlippedDiscs_invalid b row col player (by simpa using hv)

theorem isGameOver_false_of_moves (b : Board) (player : Player)
    (h : getValidMoves b player ≠ []) : isGameOver b = false := by
  have hfull : isBoardFull b = false := by
    by_cases hf : isBoardFull b = true
    · exact absurd (isBoardFull_no_moves b player hf) h
    · simpa using hf
  unfold isGameOver
  rw [if_neg (by simp [hfull])]
  have hlen : 0 < (getValidMoves b player).length := List.length_pos.mpr h
  cases player with
  | black => simp [hlen]
  | white => simp [hlen]

theorem isGameOver_true_of_no_moves (b : Board)
    (h1 : getValidMoves b Player.black = [])
    (h2 : getValidMoves b Player.white = []) : isGameOver b = true := by
  unfold isGameOver
  by_cases hf : isBoardFull b = true
  · simp [hf]
  · simp [hf, h1, h2]

theorem makeMove_board (s : GameState) (row col : Int) :
    (makeMove s row col).board = executeMove s.board row col s.currentPlayer := by
  simp [makeMove]

theorem makeMove_currentPlayer (s : GameState) (row col : Int) :
    (makeMove s row col).currentPlayer =
      (if 0 < (getValidMoves (executeMove s.board row col s.currentPlayer)
          (getOpponent s.currentPlayer)).length
        then getOpponent s.currentPlayer else s.currentPlayer) := by
  simp only [makeMove]
  by_cases h : 0 < (getValidMoves (executeMove s.board row col s.currentPlayer)
      (getOpponent s.currentPlayer)).length
  · simp [h]
  · simp [h]

theorem makeMove_status (s : GameState) (row col : Int) :
    (makeMove s row col).status =
      (if isGameOver (executeMove s.board row col s.currentPlayer) = true then
        (if getWinner (executeMove s.board row col s.currentPlayer) = none
          then GameStatus.draw else GameStatus.won)
      else GameStatus.playing) := by
  simp only [makeMove]
  by_cases h : isGameOver (executeMove s.board row col s.currentPlayer) = true
  · simp [h]
  · simp [h]

theorem makeMove_winner (s : GameState) (row col : Int) :
    (makeMove s row col).winner =
      (if isGameOver (executeMove s.board row col s.currentPlayer) = true
        then getWinner (executeMove s.board row col s.currentPlayer)
        else none) := by
  simp only [makeMove]

/-- Claim C3: after a legal move, the opponent is to move if they have a
legal reply; otherwise the mover keeps the turn if they can move; otherwise
the state is terminal.  A completely full board forces a terminal state, and
on a terminal board the reported winner is the side with strictly more
discs, equal counts giving a draw. -/
theorem c3_turn_engine (s : GameState) (row col : Int)
    (hlegal : 1 ≤ (getFlippedDiscs s.board row col s.currentPlayer).length) :
    (getValidMoves (executeMove s.board row col s.currentPlayer)
        (getOpponent s.currentPlayer) ≠ [] →
      (makeMove s row col).currentPlayer = getOpponent s.currentPlayer ∧
      (makeMove s row col).status = GameStatus.playing) ∧
    (getValidMoves (executeMove s.board row col s.currentPlayer)
        (getOpponent s.currentPlayer) = [] →
      getValidMoves (executeMove s.board row col s.currentPlayer)
        s.currentPlayer ≠ [] →
      (makeMove s row col).currentPlayer = s.currentPlayer ∧
      (makeMove s row col).status = GameStatus.playing) ∧
    (getValidMoves (executeMove s.board row col s.currentPlayer)
        (getOpponent s.currentPlayer) = [] →
      getValidMoves (executeMove s.board row col s.currentPlayer)
        s.currentPlayer = [] →
      (makeMove s row col).status ≠ GameStatus.playing) ∧
    (isBoardFull (executeMove s.board row col s.currentPlayer) = true →
      (makeMove s row col).status ≠ GameStatus.playing) ∧
    ((makeMove s row col).status ≠ GameStatus.playing →
      (makeMove s row col).winner =
        getWinner (executeMove s.board row col s.currentPlayer) ∧
      ((countDiscs (executeMove s.board row col s.currentPlayer)).white <
          (countDiscs (executeMove s.board row col s.currentPlayer)).black →
        (makeMove s row col).winner = some Player.black ∧
        (makeMove s row col).status = GameStatus.won) ∧
      ((countDiscs (executeMove s.board row col s.currentPlayer)).black <
          (countDiscs (executeMove s.board row col s.currentPlayer)).white →
        (makeMove s row col).winner = some Player.white ∧
        (makeMove s row col).status = GameStatus.won) ∧
      ((countDiscs (executeMove s.board row col s.currentPlayer)).black =
          (countDiscs (executeMove s.board row col s.currentPlayer)).white →
        (makeMove s row col).winner = none ∧
        (makeMove s row col).status = GameStatus.draw)) := by
  set b2 := executeMove s.board row col s.currentPlayer with hb2
  have hover_playing : isGameOver b2 = false →
      (makeMove s row col).status = GameStatus.playing := by
    intro h
    rw [makeMove_status, ← hb2, h]
    simp
  refine ⟨?_, ?_, ?_, ?_, ?_⟩
  · intro hopp
    have hG : isGameOver b2 = false :=
      isGameOver_false_of_moves b2 (getOpponent s.currentPlayer) hopp
    constructor
    · rw [makeMove_currentPlayer, ← hb2,
        if_pos (List.length_pos.mpr hopp)]
    · exact hover_playing hG
  · intro hopp hcur
    have hG : isGameOver b2 = false :=
      isGameOver_false_of_moves b2 s.currentPlayer hcur
    constructor
    · rw [makeMove_currentPlayer, ← hb2,
        if_neg (by simp [hopp])]
    · exact hover_playing hG
  · intro hopp hcur
    have hblack : getValidMoves b2 Player.black = [] := by
      cases hp : s.currentPlayer with
      | black => rw [hp] at hcur; exact hcur
      | white => rw [hp] at hopp; exact hopp
    have hwhite : getValidMoves b2 Player.white = [] := by
      cases hp : s.currentPlayer with
      | black => rw [hp] at hopp; exact hopp
      | white => rw [hp] at hcur; exact hcur
    have hG := isGameOver_true_of_no_moves b2 hblack hwhite
    rw [makeMove_status, ← hb2, hG]
    by_cases hw : getWinner b2 = none
    · simp [hw]
    · simp [hw]
  · intro hfull
    have hblack := isBoardFull_no_moves b2 Player.black hfull
    have hwhite := isBoardFull_no_moves b2 Player.white hfull
    have hG := isGameOver_true_of_no_moves b2 hblack hwhite
    rw [makeMove_status, ← hb2, hG]
    by_cases hw : getWinner b2 = none
    · simp [hw]
    · simp [hw]
  · intro hterm
    have hG : isGameOver b2 = true := by
      by_cases hg : isGameOver b2 = true
      · exact hg
      · exfalso
        apply hterm
        apply hover_playing
        simpa using hg
    have hwinner : (makeMove s row col).winner = getWinner b2 := by
      rw [makeMove_winner, ← hb2, hG]
      simp
    have hstatus : (makeMove s row col).status =
        (if getWinner b2 = none then GameStatus.draw else GameStatus.won) := by
      rw [makeMove_status, ← hb2, hG]
      simp
    refine ⟨hwinner, ?_, ?_, ?_⟩
    · intro hlt
      have hw : getWinner b2 = some Player.black := by
        unfold getWinner
        simp [hlt]
      rw [hwinner, hstatus, hw]
      simp
    · intro hlt
      have hnlt : ¬ (countDiscs b2).white < (countDiscs b2).black := by omega
      have hw : getWinner b2 = some Player.white := by
        unfold getWinner
        simp [hlt, hnlt]
      rw [hwinner, hstatus, hw]
      simp
    · intro heq
      have hw : getWinner b2 = none := by
        unfold getWinner
        simp [heq]
      rw [hwinner, hstatus, hw]
      simp

/-- The initial game state (black to move on the initial board). -/
def initState : GameState := createInitialGameState GameMode.pvc Difficulty.medium

/-- Witness for C3: at the initial position, (2,3) is a legal move for
black. -/
theorem c3_turn_engine_witness :
    1 ≤ (getFlippedDiscs initState.board 2 3 initState.currentPlayer).length ∧
    ((getValidMoves (executeMove initState.board 2 3 initState.currentPlayer)
        (getOpponent initState.currentPlayer) ≠ [] →
      (makeMove initState 2 3).currentPlayer = getOpponent initState.currentPlayer ∧
      (makeMove initState 2 3).status = GameStatus.playing) ∧
    (getValidMoves (executeMove initState.board 2 3 initState.currentPlayer)
        (getOpponent initState.currentPlayer) = [] →
      getValidMoves (executeMove initState.board 2 3 initState.currentPlayer)
        initState.currentPlayer ≠ [] →
      (makeMove initState 2 3).currentPlayer = initState.currentPlayer ∧
      (makeMove initState 2 3).status = GameStatus.playing) ∧
    (getValidMoves (executeMove initState.board 2 3 initState.currentPlayer)
        (getOpponent initState.currentPlayer) = [] →
      getValidMoves (executeMove initState.board 2 3 initState.currentPlayer)
        initState.currentPlayer = [] →
      (makeMove initState 2 3).status ≠ GameStatus.playing) ∧
    (isBoardFull (executeMove initState.board 2 3 initState.currentPlayer) = true →
      (makeMove initState 2 3).status ≠ GameStatus.playing) ∧
    ((makeMove initState 2 3).status ≠ GameStatus.playing →
      (makeMove initState 2 3).winner =
        getWinner (executeMove initState.board 2 3 initState.currentPlayer) ∧
      ((countDiscs (executeMove initState.board 2 3 initState.currentPlayer)).white <
          (countDiscs (executeMove initState.board 2 3 initState.currentPlayer)).black →
        (makeMove initState 2 3).winner = some Player.black ∧
        (makeMove initState 2 3).status = GameStatus.won) ∧
      ((countDiscs (executeMove initState.board 2 3 initState.currentPlayer)).black <
          (countDiscs (executeMove initState.board 2 3 initState.currentPlayer)).white →
        (makeMove initState 2 3).winner = some Player.white ∧
        (makeMove initState 2 3).status = GameStatus.won) ∧
      ((countDiscs (executeMove initState.board 2 3 initState.currentPlayer)).black =
          (countDiscs (executeMove initState.board 2 3 initState.currentPlayer)).white →
        (makeMove initState 2 3).winner = none ∧
        (makeMove initState 2 3).status = GameStatus.draw))) :=
  ⟨by decide, c3_turn_engine initState 2 3 (by decide)⟩

/-!
Cell updates and disc counting.
-/

theorem bget_setCell (b : Board) (r c : Int) (v : Option Player) (r' c' : Int) :
    bget (setCell b r c v) r' c' =
      if r' = r ∧ c' = c ∧ isValidPosition r' c' = true then v
      else bget b r' c' := by
  by_cases hval : 0 ≤ r' ∧ r' < 8 ∧ 0 ≤ c' ∧ c' < 8
  · have hvp : isValidPosition r' c' = true := by
      unfold isValidPosition
      simp only [Bool.and_eq_true, decide_eq_true_eq]
      omega
    unfold bget setCell
    rw [dif_pos hval, dif_pos hval]
    simp only []
    have e1 : ((r'.toNat : Nat) : Int) = r' := by omega
    have e2 : ((c'.toNat : Nat) : Int) = c' := by omega
    by_cases heq : r' = r ∧ c' = c
    · rw [if_pos (by constructor <;> [rw [e1]; rw [e2]] <;>
        [exact heq.1; exact heq.2])]
      rw [if_pos ⟨heq.1, heq.2, hvp⟩]
    · rw [if_neg (by rw [e1, e2]; exact heq)]
      rw [if_neg (by intro hcon; exact heq ⟨hcon.1, hcon.2.1⟩)]
  · have hvp : isValidPosition r' c' = false := by
      by_contra hc
      apply hval
      have hvt : isValidPosition r' c' = true := by simpa using hc
      unfold isValidPosition at hvt
      simp only [Bool.and_eq_true, decide_eq_true_eq] at hvt
      omega
    unfold bget
    rw [dif_neg hval, dif_neg hval]
    rw [if_neg (by intro hcon; rw [hvp] at hcon; exact absurd hcon.2.2 (by simp))]

theorem bget_foldl_setCell (player : Player) :
    ∀ (l : List (Int × Int)) (b : Board) (r c : Int),
      bget (l.foldl (fun nb q => setCell nb q.1 q.2 (some player)) b) r c =
        if (r, c) ∈ l ∧ isValidPosition r c = true then some player
        else bget b r c := by
  intro l
  induction l with
  | nil => intro b r c; simp
  | cons q l ih =>
    intro b r c
    simp only [List.foldl_cons, ih, List.mem_cons]
    by_cases hin : ((r, c) ∈ l ∧ isValidPosition r c = true)
    · rw [if_pos hin, if_pos ⟨Or.inr hin.1, hin.2⟩]
    · rw [if_neg hin, bget_setCell]
      by_cases hq : (r, c) = q ∧ isValidPosition r c = true
      · rw [if_pos (by
          refine ⟨?_, ?_, hq.2⟩ <;> rw [← hq.1]),
          if_pos ⟨Or.inl hq.1, hq.2⟩]
      · rw [if_neg (by
          intro hcon
          apply hq
          refine ⟨?_, hcon.2.2⟩
          rw [Prod.ext_iff]
          exact ⟨hcon.1, hcon.2.1⟩)]
        rw [if_neg (by
          intro hcon
          rcases hcon.1 with h1 | h1
          · exact hq ⟨h1, hcon.2⟩
          · exact hin ⟨h1, hcon.2⟩)]

theorem length_filter_update {α : Type} (P Q : α → Bool) (q : α) :
    ∀ (l : List α), l.Nodup → q ∈ l → (∀ x ∈ l, x ≠ q → P x = Q x) →
      (l.filter P).length + (if Q q = true then 1 else 0)
        = (l.filter Q).length + (if P q = true then 1 else 0) := by
  intro l
  induction l with
  | nil => intro _ hq; simp at hq
  | cons a l ih =>
    intro hnd hq hagree
    have hnd' := (List.nodup_cons.mp hnd).2
    rcases List.mem_cons.mp hq with rfl | hq'
    · have hnotin : q ∉ l := (List.nodup_cons.mp hnd).1
      have hfilter : l.filter P = l.filter Q :=
        List.filter_congr (fun x hx =>
          hagree x (List.mem_cons_of_mem q hx)
            (fun hxq => hnotin (hxq ▸ hx)))
      rw [List.filter_cons, List.filter_cons, hfilter]
      by_cases hP : P q = true
      · by_cases hQ : Q q = true
        · simp [hP, hQ]
        · simp [hP, hQ]
      · by_cases hQ : Q q = true
        · simp [hP, hQ]
        · simp [hP, hQ]
    · have haq : a ≠ q := by
        intro hak
        exact (List.nodup_cons.mp hnd).1 (hak ▸ hq')
      have hPa : P a = Q a := hagree a (List.mem_cons_self a l) haq
      have ihres := ih hnd' hq'
        (fun x hx hxq => hagree x (List.mem_cons_of_mem a hx) hxq)
      rw [List.filter_cons, List.filter_cons, hPa]
      set x := (if Q q = true then 1 else 0) with hx
      set y := (if P q = true then 1 else 0) with hy
      by_cases hQa : Q a = true
      · rw [if_pos hQa, if_pos hQa]
        simp only [List.length_cons]
        omega
      · rw [if_neg hQa, if_neg hQa]
        omega

/-- Reads the acting side's disc count from a `countDiscs` result. -/
def discsOf (c : DiscCount) (player : Player) : Nat :=
  match player with
  | Player.black => c.black
  | Player.white => c.white

theorem allCells_nodup : allCells.Nodup := by decide

theorem getOpponent_ne (p : Player) : getOpponent p ≠ p := by
  cases p <;> simp [getOpponent]

theorem discsOf_countDiscs (b : Board) (t : Player) :
    discsOf (countDiscs b) t
      = (allCells.filter (fun x => bget b x.1 x.2 == some t)).length := by
  cases t <;> rfl

theorem discsOf_countDiscs_setCell (b : Board) (r c : Int) (v : Option Player)
    (t : Player) (hval : isValidPosition r c = true) :
    discsOf (countDiscs (setCell b r c v)) t
        + (if (bget b r c == some t) = true then 1 else 0)
      = discsOf (countDiscs b) t + (if (v == some t) = true then 1 else 0) := by
  rw [discsOf_countDiscs, discsOf_countDiscs]
  have hpoint : bget (setCell b r c v) r c = v := by
    rw [bget_setCell, if_pos ⟨rfl, rfl, hval⟩]
  have hmain := length_filter_update
    (fun x => bget (setCell b r c v) x.1 x.2 == some t)
    (fun x => bget b x.1 x.2 == some t)
    (r, c) allCells allCells_nodup (mem_allCells.mpr hval)
    (fun x hx hxq => by
      simp only []
      rw [bget_setCell, if_neg]
      intro hcon
      apply hxq
      rw [Prod.ext_iff]
      exact ⟨hcon.1, hcon.2.1⟩)
  simp only [hpoint] at hmain
  exact hmain

theorem discsOf_countDiscs_flip_fold (player t : Player) :
    ∀ (l : List (Int × Int)) (b : Board), l.Nodup →
      (∀ q ∈ l, isValidPosition q.1 q.2 = true
        ∧ bget b q.1 q.2 = some (getOpponent player)) →
      discsOf (countDiscs
          (l.foldl (fun nb q => setCell nb q.1 q.2 (some player)) b)) t
          + (if getOpponent player = t then l.length else 0)
        = discsOf (countDiscs b) t + (if player = t then l.length else 0) := by
  intro l
  induction l with
  | nil => intro b _ _; simp
  | cons q l ih =>
    intro b hnd hfacts
    have hq := hfacts q (List.mem_cons_self q l)
    have hnd' := (List.nodup_cons.mp hnd).2
    have hnotin := (List.nodup_cons.mp hnd).1
    simp only [List.foldl_cons]
    have hfacts' : ∀ x ∈ l, isValidPosition x.1 x.2 = true
        ∧ bget (setCell b q.1 q.2 (some player)) x.1 x.2
            = some (getOpponent player) := by
      intro x hx
      refine ⟨(hfacts x (List.mem_cons_of_mem q hx)).1, ?_⟩
      rw [bget_setCell, if_neg]
      · exact (hfacts x (List.mem_cons_of_mem q hx)).2
      · intro hcon
        apply hnotin
        have hxq : x = q := by
          rw [Prod.ext_iff]
          exact ⟨hcon.1, hcon.2.1⟩
        exact hxq ▸ hx
    have ihres := ih (setCell b q.1 q.2 (some player)) hnd' hfacts'
    have hstep := discsOf_countDiscs_setCell b q.1 q.2 (some player) t hq.1
    rw [hq.2] at hstep
    simp only [beq_iff_eq, Option.some.injEq] at hstep
    simp only [List.length_cons]
    by_cases h1 : getOpponent player = t
    · have h2 : ¬ player = t := fun h2 =>
        getOpponent_ne player (h1.trans h2.symm)
      rw [if_pos h1, if_neg h2] at ihres
      rw [if_pos h1, if_neg h2] at hstep
      rw [if_pos h1, if_neg h2]
      omega
    · by_cases h2 : player = t
      · rw [if_neg h1, if_pos h2] at ihres
        rw [if_neg h1, if_pos h2] at hstep
        rw [if_neg h1, if_pos h2]
        omega
      · rw [if_neg h1, if_neg h2] at ihres
        rw [if_neg h1, if_neg h2] at hstep
        rw [if_neg h1, if_neg h2]
        omega

/-!
Structure of the flip list: every flipped cell is an on-board opponent disc
a positive number of steps from the target along its direction, and the flip
list has no duplicates.
-/

theorem ray_nodup {dr dc : Int} (hd : dr ≠ 0 ∨ dc ≠ 0) :
    ∀ (n : Nat) (r c : Int), (ray dr dc n r c).Nodup := by
  intro n
  induction n with
  | zero => intro r c; simp [ray]
  | succ m ih =>
    intro r c
    rw [ray, List.nodup_cons]
    refine ⟨?_, ih (r + dr) (c + dc)⟩
    intro hmem
    obtain ⟨k, _, hk⟩ := mem_ray.mp hmem
    rw [Prod.ext_iff] at hk
    have e1 : ((k : Int) + 1) * dr = 0 := by
      have := hk.1
      simp only at this
      nlinarith [this]
    have e2 : ((k : Int) + 1) * dc = 0 := by
      have := hk.2
      simp only at this
      nlinarith [this]
    have hk1 : ((k : Int) + 1) ≠ 0 := by omega
    rcases hd with h | h
    · exact h (by rcases mul_eq_zero.mp e1 with h' | h' <;> [exact absurd h' hk1; exact h'])
    · exact h (by rcases mul_eq_zero.mp e2 with h' | h' <;> [exact absurd h' hk1; exact h'])

theorem mem_checkDirection_facts (b : Board) (row col : Int) (player : Player)
    (d : Int × Int) (q : Int × Int)
    (hq : q ∈ checkDirection b row col player d) :
    isValidPosition q.1 q.2 = true
      ∧ bget b q.1 q.2 = some (getOpponent player)
      ∧ ∃ m : Nat, 1 ≤ m ∧ q.1 = row + (m : Int) * d.1
          ∧ q.2 = col + (m : Int) * d.2 := by
  rw [checkDirection_eq_spec] at hq
  unfold specDirFlips at hq
  have hrun : q ∈ dirOppRun b player row col d := by
    by_cases hcond : (0 < (dirOppRun b player row col d).length
        ∧ isValidPosition (row + ((dirOppRun b player row col d).length + 1) * d.1)
            (col + ((dirOppRun b player row col d).length + 1) * d.2) = true
        ∧ bget b (row + ((dirOppRun b player row col d).length + 1) * d.1)
            (col + ((dirOppRun b player row col d).length + 1) * d.2) = some player)
    · rw [if_pos hcond] at hq
      exact hq
    · rw [if_neg hcond] at hq
      exact absurd hq (List.not_mem_nil q)
  unfold dirOppRun at hrun
  have hP := List.mem_takeWhile_imp hrun
  simp only [Bool.and_eq_true, beq_iff_eq] at hP
  refine ⟨hP.1, hP.2, ?_⟩
  have hray : q ∈ ray d.1 d.2 8 (row + d.1) (col + d.2) :=
    (List.takeWhile_sublist _).subset hrun
  obtain ⟨k, _, hk⟩ := mem_ray.mp hray
  refine ⟨k + 1, by omega, ?_, ?_⟩
  · rw [hk]
    push_cast
    ring
  · rw [hk]
    push_cast
    ring

theorem checkDirection_nodup (b : Board) (row col : Int) (player : Player)
    (d : Int × Int) (hd : d.1 ≠ 0 ∨ d.2 ≠ 0) :
    (checkDirection b row col player d).Nodup := by
  rw [checkDirection_eq_spec]
  unfold specDirFlips
  have hrun : (dirOppRun b player row col d).Nodup := by
    unfold dirOppRun
    exact (List.takeWhile_sublist _).nodup (ray_nodup hd 8 _ _)
  by_cases hcond : (0 < (dirOppRun b player row col d).length
      ∧ isValidPosition (row + ((dirOppRun b player row col d).length + 1) * d.1)
          (col + ((dirOppRun b player row col d).length + 1) * d.2) = true
      ∧ bget b (row + ((dirOppRun b player row col d).length + 1) * d.1)
          (col + ((dirOppRun b player row col d).length + 1) * d.2) = some player)
  · rw [if_pos hcond]; exact hrun
  · rw [if_neg hcond]; exact List.nodup_nil

theorem checkDirection_disjoint (b : Board) (row col : Int) (player : Player)
    {d1 d2 : Int × Int} (h1 : d1 ∈ DIRECTIONS) (h2 : d2 ∈ DIRECTIONS)
    (hne : d1 ≠ d2) :
    List.Disjoint (checkDirection b row col player d1)
      (checkDirection b row col player d2) := by
  intro q hq1 hq2
  obtain ⟨_, _, m1, hm1, he1, hf1⟩ :=
    mem_checkDirection_facts b row col player d1 q hq1
  obtain ⟨_, _, m2, hm2, he2, hf2⟩ :=
    mem_checkDirection_facts b row col player d2 q hq2
  fin_cases h1 <;> fin_cases h2 <;>
    first
      | exact hne rfl
      | (simp only at he1 he2 hf1 hf2; omega)

theorem mem_DIRECTIONS_ne_zero {d : Int × Int} (hd : d ∈ DIRECTIONS) :
    d.1 ≠ 0 ∨ d.2 ≠ 0 := by
  fin_cases hd <;> simp

theorem getFlippedDiscs_nodup (b : Board) (row col : Int) (player : Player) :
    (getFlippedDiscs b row col player).Nodup := by
  unfold getFlippedDiscs
  by_cases h : (!isValidPosition row col || !(bget b row col == none)) = true
  · rw [if_pos h]; exact List.nodup_nil
  · rw [if_neg h]
    rw [List.flatMap_def, List.nodup_flatten]
    constructor
    · intro l hl
      obtain ⟨d, hd, rfl⟩ := List.mem_map.mp hl
      exact checkDirection_nodup b row col player d (mem_DIRECTIONS_ne_zero hd)
    · rw [List.pairwise_map]
      have hpne : DIRECTIONS.Pairwise (fun d1 d2 => d1 ≠ d2) := by decide
      refine List.Pairwise.imp_of_mem ?_ hpne
      intro d1 d2 hd1 hd2 hne
      exact checkDirection_disjoint b row col player hd1 hd2 hne

theorem mem_getFlippedDiscs_facts (b : Board) (row col : Int) (player : Player)
    (q : Int × Int) (hq : q ∈ getFlippedDiscs b row col player) :
    isValidPosition q.1 q.2 = true
      ∧ bget b q.1 q.2 = some (getOpponent player) := by
  unfold getFlippedDiscs at hq
  by_cases h : (!isValidPosition row col || !(bget b row col == none)) = true
  · rw [if_pos h] at hq
    exact absurd hq (List.not_mem_nil q)
  · rw [if_neg h] at hq
    obtain ⟨d, _, hmem⟩ := List.mem_flatMap.mp hq
    have := mem_checkDirection_facts b row col player d q hmem
    exact ⟨this.1, this.2.1⟩

theorem getFlippedDiscs_nonempty_target (b : Board) (row col : Int)
    (player : Player) (h : getFlippedDiscs b row col player ≠ []) :
    isValidPosition row col = true ∧ bget b row col = none := by
  unfold getFlippedDiscs at h
  by_cases hg : (!isValidPosition row col || !(bget b row col == none)) = true
  · rw [if_pos hg] at h
    exact absurd rfl h
  · simp only [Bool.or_eq_true, Bool.not_eq_true', beq_eq_false_iff_ne,
      not_or, Bool.not_eq_false] at hg
    push_neg at hg
    exact ⟨hg.1, by simpa using hg.2⟩

theorem target_not_mem_flips (b : Board) (row col : Int) (player : Player)
    (h : getFlippedDiscs b row col player ≠ []) :
    ((row, col) : Int × Int) ∉ getFlippedDiscs b row col player := by
  intro hmem
  have hfact := mem_getFlippedDiscs_facts b row col player (row, col) hmem
  have htarget := (getFlippedDiscs_nonempty_target b row col player h).2
  simp only at hfact
  rw [htarget] at hfact
  exact Option.noConfusion hfact.2

/-- Claim C4: a move with n ≥ 1 flips occupies exactly one previously-empty
cell (the target), raises the acting side's disc count by 1 + n, lowers the
opponent's by n, and never decreases the total disc count. -/
theorem c4_apply_move_counts (b : Board) (row col : Int) (player : Player)
    (h : 1 ≤ (getFlippedDiscs b row col player).length) :
    bget b row col = none ∧
    bget (executeMove b row col player) row col = some player ∧
    (∀ r c : Int, ¬(r = row ∧ c = col) →
      (bget (executeMove b row col player) r c = none ↔ bget b r c = none)) ∧
    discsOf (countDiscs (executeMove b row col player)) player
      = discsOf (countDiscs b) player + 1
          + (getFlippedDiscs b row col player).length ∧
    discsOf (countDiscs (executeMove b row col player)) (getOpponent player)
        + (getFlippedDiscs b row col player).length
      = discsOf (countDiscs b) (getOpponent player) ∧
    (countDiscs b).black + (countDiscs b).white
      ≤ (countDiscs (executeMove b row col player)).black
        + (countDiscs (executeMove b row col player)).white := by
  have hne : getFlippedDiscs b row col player ≠ [] := by
    intro hnil
    rw [hnil] at h
    simp at h
  obtain ⟨hvalid, hempty⟩ := getFlippedDiscs_nonempty_target b row col player hne
  have hnotmem := target_not_mem_flips b row col player hne
  have hnodup := getFlippedDiscs_nodup b row col player
  have hexec : executeMove b row col player
      = (getFlippedDiscs b row col player).foldl
          (fun nb q => setCell nb q.1 q.2 (some player))
          (setCell b row col (some player)) := by
    unfold executeMove
    rw [if_neg (by
      intro hlen
      exact hne (List.length_eq_zero.mp hlen))]
  have hfacts : ∀ q ∈ getFlippedDiscs b row col player,
      isValidPosition q.1 q.2 = true
      ∧ bget (setCell b row col (some player)) q.1 q.2
          = some (getOpponent player) := by
    intro q hq
    have hf := mem_getFlippedDiscs_facts b row col player q hq
    refine ⟨hf.1, ?_⟩
    rw [bget_setCell, if_neg, hf.2]
    intro hcon
    apply hnotmem
    have hqe : q = (row, col) := by
      rw [Prod.ext_iff]
      exact ⟨hcon.1, hcon.2.1⟩
    rw [← hqe]
    exact hq
  have hstep : ∀ t : Player,
      discsOf (countDiscs (setCell b row col (some player))) t
        = discsOf (countDiscs b) t + (if player = t then 1 else 0) := by
    intro t
    have hs := discsOf_countDiscs_setCell b row col (some player) t hvalid
    rw [hempty] at hs
    simp only [beq_iff_eq, Option.some.injEq, reduceCtorEq] at hs
    simpa using hs
  have hfold : ∀ t : Player,
      discsOf (countDiscs (executeMove b row col player)) t
          + (if getOpponent player = t
              then (getFlippedDiscs b row col player).length else 0)
        = discsOf (countDiscs (setCell b row col (some player))) t
          + (if player = t
              then (getFlippedDiscs b row col player).length else 0) := by
    intro t
    rw [hexec]
    exact discsOf_countDiscs_flip_fold player t
      (getFlippedDiscs b row col player)
      (setCell b row col (some player)) hnodup hfacts
  have hplayer : discsOf (countDiscs (executeMove b row col player)) player
      = discsOf (countDiscs b) player + 1
        + (getFlippedDiscs b row col player).length := by
    have h1 := hfold player
    rw [if_neg (getOpponent_ne player), if_pos rfl, hstep player,
      if_pos rfl] at h1
    omega
  have hopp : discsOf (countDiscs (executeMove b row col player))
        (getOpponent player)
        + (getFlippedDiscs b row col player).length
      = discsOf (countDiscs b) (getOpponent player) := by
    have h1 := hfold (getOpponent player)
    have hpo : ¬ player = getOpponent player := fun hcon =>
      getOpponent_ne player hcon.symm
    rw [if_pos rfl, if_neg hpo, hstep (getOpponent player), if_neg hpo] at h1
    omega
  refine ⟨hempty, ?_, ?_, hplayer, hopp, ?_⟩
  · rw [hexec, bget_foldl_setCell,
      if_neg (fun hcon => hnotmem hcon.1), bget_setCell,
      if_pos ⟨rfl, rfl, hvalid⟩]
  · intro r c hne2
    rw [hexec, bget_foldl_setCell]
    have hbase : bget (setCell b row col (some player)) r c = bget b r c := by
      rw [bget_setCell, if_neg (fun hcon => hne2 ⟨hcon.1, hcon.2.1⟩)]
    by_cases hin : ((r, c) ∈ getFlippedDiscs b row col player
        ∧ isValidPosition r c = true)
    · rw [if_pos hin]
      have hf := mem_getFlippedDiscs_facts b row col player (r, c) hin.1
      simp only at hf
      rw [hf.2]
      simp
    · rw [if_neg hin, hbase]
  · have hb := hplayer
    have hw := hopp
    cases player with
    | black =>
      simp only [discsOf, getOpponent] at hb hw
      omega
    | white =>
      simp only [discsOf, getOpponent] at hb hw
      omega

/-- Witness for C4: black's move at (2,3) on the initial board flips one
disc. -/
theorem c4_apply_move_counts_witness :
    1 ≤ (getFlippedDiscs createInitialBoard 2 3 Player.black).length ∧
    (bget createInitialBoard 2 3 = none ∧
    bget (executeMove createInitialBoard 2 3 Player.black) 2 3
      = some Player.black ∧
    (∀ r c : Int, ¬(r = 2 ∧ c = 3) →
      (bget (executeMove createInitialBoard 2 3 Player.black) r c = none
        ↔ bget createInitialBoard r c = none)) ∧
    discsOf (countDiscs (executeMove createInitialBoard 2 3 Player.black))
        Player.black
      = discsOf (countDiscs createInitialBoard) Player.black + 1
          + (getFlippedDiscs createInitialBoard 2 3 Player.black).length ∧
    discsOf (countDiscs (executeMove createInitialBoard 2 3 Player.black))
        (getOpponent Player.black)
        + (getFlippedDiscs createInitialBoard 2 3 Player.black).length
      = discsOf (countDiscs createInitialBoard) (getOpponent Player.black) ∧
    (countDiscs createInitialBoard).black + (countDiscs createInitialBoard).white
      ≤ (countDiscs (executeMove createInitialBoard 2 3 Player.black)).black
        + (countDiscs (executeMove createInitialBoard 2 3 Player.black)).white) :=
  ⟨by decide, c4_apply_move_counts createInitialBoard 2 3 Player.black (by decide)⟩

/-!
Behaviour on illegal (zero-flip) moves.
-/

/-- Counterexample to claim C5: at the initial position, (0,0) is an illegal
move (zero flips), yet `makeMove` does not leave the game state unchanged —
it hands the turn to the opponent and appends the move to the history. -/
theorem c5_counterexample :
    (getFlippedDiscs initState.board 0 0 initState.currentPlayer).length = 0
    ∧ ¬ ((makeMove initState 0 0).currentPlayer = initState.currentPlayer
        ∧ (makeMove initState 0 0).moveHistory = initState.moveHistory) := by
  constructor
  · decide
  · decide

/-- Amended claim C5: on a zero-flip (illegal) move, `executeMove` returns
the board unchanged, and `makeMove` keeps the board and the disc counts
unchanged — but it does not keep the whole state unchanged: it still appends
the move to the history (and hands the turn to the opponent whenever the
opponent has a legal move). -/
theorem c5_no_mutation_amended (s : GameState) (row col : Int)
    (h : (getFlippedDiscs s.board row col s.currentPlayer).length = 0) :
    executeMove s.board row col s.currentPlayer = s.board ∧
    (makeMove s row col).board = s.board ∧
    (makeMove s row col).blackCount = (countDiscs s.board).black ∧
    (makeMove s row col).whiteCount = (countDiscs s.board).white ∧
    (makeMove s row col).moveHistory
      = s.moveHistory ++ [⟨row, col, s.currentPlayer⟩] := by
  have hexec : executeMove s.board row col s.currentPlayer = s.board := by
    unfold executeMove
    rw [if_pos h]
  refine ⟨hexec, ?_, ?_, ?_, ?_⟩
  · rw [makeMove_board, hexec]
  · simp [makeMove, hexec]
  · simp [makeMove, hexec]
  · simp [makeMove]

/-- Witness for the amended C5 at the initial position with the illegal
move (0,0). -/
theorem c5_no_mutation_amended_witness :
    (getFlippedDiscs initState.board 0 0 initState.currentPlayer).length = 0 ∧
    (executeMove initState.board 0 0 initState.currentPlayer = initState.board ∧
    (makeMove initState 0 0).board = initState.board ∧
    (makeMove initState 0 0).blackCount = (countDiscs initState.board).black ∧
    (makeMove initState 0 0).whiteCount = (countDiscs initState.board).white ∧
    (makeMove initState 0 0).moveHistory
      = initState.moveHistory ++ [⟨0, 0, initState.currentPlayer⟩]) :=
  ⟨by decide, c5_no_mutation_amended initState 0 0 (by decide)⟩

/-!
Corners are never flipped: every flipped cell has both its predecessor and
successor along the flip direction on the board, which no corner has.
-/

theorem checkDirection_mem_neighbors (b : Board) (row col : Int)
    (player : Player) (dr dc : Int)
    (hvalid : isValidPosition row col = true)
    (qr qc : Int) (hq : (qr, qc) ∈ checkDirection b row col player (dr, dc)) :
    isValidPosition (qr - dr) (qc - dc) = true
      ∧ isValidPosition (qr + dr) (qc + dc) = true := by
  rw [checkDirection_eq_spec] at hq
  unfold specDirFlips at hq
  by_cases hcond : (0 < (dirOppRun b player row col (dr, dc)).length
      ∧ isValidPosition
          (row + (((dirOppRun b player row col (dr, dc)).length : Int) + 1) * (dr, dc).1)
          (col + (((dirOppRun b player row col (dr, dc)).length : Int) + 1) * (dr, dc).2) = true
      ∧ bget b
          (row + (((dirOppRun b player row col (dr, dc)).length : Int) + 1) * (dr, dc).1)
          (col + (((dirOppRun b player row col (dr, dc)).length : Int) + 1) * (dr, dc).2)
          = some player)
  swap
  · rw [if_neg hcond] at hq
    exact absurd hq (List.not_mem_nil _)
  rw [if_pos hcond] at hq
  have hP : ∀ x ∈ dirOppRun b player row col (dr, dc),
      isValidPosition x.1 x.2 = true := by
    intro x hx
    unfold dirOppRun at hx
    have hPx := List.mem_takeWhile_imp hx
    simp only [Bool.and_eq_true] at hPx
    exact hPx.1
  have hrunray : dirOppRun b player row col (dr, dc)
      = ray dr dc (dirOppRun b player row col (dr, dc)).length
          (row + dr) (col + dc) := by
    unfold dirOppRun
    exact takeWhile_ray_eq_ray _ dr dc 8 _ _
  set n := (dirOppRun b player row col (dr, dc)).length with hn
  rw [hrunray] at hq
  obtain ⟨k, hkn, hk⟩ := mem_ray.mp hq
  rw [Prod.mk.injEq] at hk
  obtain ⟨hk1, hk2⟩ := hk
  constructor
  · match k, hkn with
    | 0, _ =>
      have e1 : qr - dr = row := by rw [hk1]; push_cast; ring
      have e2 : qc - dc = col := by rw [hk2]; push_cast; ring
      rw [e1, e2]
      exact hvalid
    | k' + 1, hkn =>
      have hmem : ((qr - dr, qc - dc) : Int × Int)
          ∈ ray dr dc n (row + dr) (col + dc) := by
        apply mem_ray.mpr
        refine ⟨k', by omega, ?_⟩
        rw [Prod.mk.injEq]
        constructor
        · rw [hk1]; push_cast; ring
        · rw [hk2]; push_cast; ring
      rw [← hrunray] at hmem
      exact hP _ hmem
  · by_cases hlast : k + 1 < n
    · have hmem : ((qr + dr, qc + dc) : Int × Int)
          ∈ ray dr dc n (row + dr) (col + dc) := by
        apply mem_ray.mpr
        refine ⟨k + 1, hlast, ?_⟩
        rw [Prod.mk.injEq]
        constructor
        · rw [hk1]; push_cast; ring
        · rw [hk2]; push_cast; ring
      rw [← hrunray] at hmem
      exact hP _ hmem
    · have hkeq : k + 1 = n := by omega
      have e1 : qr + dr = row + ((n : Int) + 1) * dr := by
        rw [hk1, ← hkeq]; push_cast; ring
      have e2 : qc + dc = col + ((n : Int) + 1) * dc := by
        rw [hk2, ← hkeq]; push_cast; ring
      rw [e1, e2]
      exact hcond.2.1

theorem getFlippedDiscs_no_corner (b : Board) (row col : Int)
    (player : Player) (q : Int × Int) (hc : q ∈ corners) :
    q ∉ getFlippedDiscs b row col player := by
  intro hq
  have hne : getFlippedDiscs b row col player ≠ [] :=
    List.ne_nil_of_mem hq
  have hvalid := (getFlippedDiscs_nonempty_target b row col player hne).1
  unfold getFlippedDiscs at hq
  by_cases hg : (!isValidPosition row col || !(bget b row col == none)) = true
  · rw [if_pos hg] at hq
    exact absurd hq (List.not_mem_nil q)
  · rw [if_neg hg] at hq
    obtain ⟨d, hd, hmem⟩ := List.mem_flatMap.mp hq
    obtain ⟨qr, qc⟩ := q
    obtain ⟨dr, dc⟩ := d
    obtain ⟨hpred, hsucc⟩ :=
      checkDirection_mem_neighbors b row col player dr dc hvalid qr qc hmem
    unfold isValidPosition at hpred hsucc
    simp only [Bool.and_eq_true, decide_eq_true_eq] at hpred hsucc
    simp only [corners, List.mem_cons, List.not_mem_nil, or_false,
      Prod.mk.injEq] at hc
    simp only [DIRECTIONS, List.mem_cons, List.not_mem_nil, or_false,
      Prod.mk.injEq] at hd
    omega

/-- Claim C8: a flip list never contains a corner cell, and consequently an
occupied corner keeps its occupant across any `executeMove`. -/
theorem c8_corner_stability (b : Board) (row col : Int) (player : Player)
    (q : Int × Int) (hc : q ∈ corners) :
    q ∉ getFlippedDiscs b row col player
      ∧ ∀ side : Player, bget b q.1 q.2 = some side →
          bget (executeMove b row col player) q.1 q.2 = some side := by
  refine ⟨getFlippedDiscs_no_corner b row col player q hc, ?_⟩
  intro side hocc
  unfold executeMove
  by_cases hlen : (getFlippedDiscs b row col player).length = 0
  · rw [if_pos hlen]
    exact hocc
  · rw [if_neg hlen]
    have hne : getFlippedDiscs b row col player ≠ [] := by
      intro hnil
      rw [hnil] at hlen
      exact hlen rfl
    obtain ⟨hvalid, hempty⟩ :=
      getFlippedDiscs_nonempty_target b row col player hne
    rw [bget_foldl_setCell]
    rw [if_neg (fun hcon =>
      getFlippedDiscs_no_corner b row col player q hc (by
        have hqp : ((q.1, q.2) : Int × Int) = q := by
          rw [Prod.mk.injEq]; exact ⟨rfl, rfl⟩
        rw [← hqp]
        exact hcon.1))]
    rw [bget_setCell]
    rw [if_neg (fun hcon => by
      rw [hcon.1, hcon.2.1] at hocc
      rw [hempty] at hocc
      exact Option.noConfusion hocc)]
    exact hocc

/-- Witness for C8: the corner (0,0), occupied by white on a modified
initial board, survives black's move at (2,3). -/
theorem c8_corner_stability_witness :
    ((0, 0) : Int × Int) ∈ corners ∧
    (((0, 0) : Int × Int) ∉ getFlippedDiscs
        (setCell createInitialBoard 0 0 (some Player.white)) 2 3 Player.black
      ∧ ∀ side : Player,
          bget (setCell createInitialBoard 0 0 (some Player.white)) 0 0
            = some side →
          bget (executeMove
              (setCell createInitialBoard 0 0 (some Player.white))
              2 3 Player.black) 0 0 = some side) :=
  ⟨by decide, c8_corner_stability
    (setCell createInitialBoard 0 0 (some Player.white)) 2 3 Player.black
    (0, 0) (by decide)⟩

/-!
Antisymmetry of the static evaluator.
-/

theorem getOpponent_getOpponent (p : Player) :
    getOpponent (getOpponent p) = p := by
  cases p <;> rfl

theorem player_cases (pl p : Player) : pl = p ∨ pl = getOpponent p := by
  cases pl <;> cases p <;> simp [getOpponent]

theorem sidedScore_foldl_neg (b : Board) (p : Player) (a : Int) :
    ∀ (l : List (Int × Int)) (s : Int),
      l.foldl (fun acc q =>
        if bget b q.1 q.2 == some (getOpponent p) then acc + a
        else if bget b q.1 q.2 == some p then acc - a
        else acc) (-s)
      = - l.foldl (fun acc q =>
        if bget b q.1 q.2 == some p then acc + a
        else if bget b q.1 q.2 == some (getOpponent p) then acc - a
        else acc) s := by
  have hstep : ∀ (s : Int) (q : Int × Int),
      (if bget b q.1 q.2 == some (getOpponent p) then (-s) + a
       else if bget b q.1 q.2 == some p then (-s) - a
       else (-s))
      = -(if bget b q.1 q.2 == some p then s + a
          else if bget b q.1 q.2 == some (getOpponent p) then s - a
          else s) := by
    intro s q
    rcases hbq : bget b q.1 q.2 with _ | pl
    · simp
    · rcases player_cases pl p with rfl | hpl
      · have hs : ¬ (pl = getOpponent pl) := fun h => getOpponent_ne pl h.symm
        simp only [beq_iff_eq, Option.some.injEq, hs, if_false, if_true,
          if_pos rfl, if_neg hs]
        ring
      · subst hpl
        have hs : ¬ (getOpponent p = p) := getOpponent_ne p
        simp only [beq_iff_eq, Option.some.injEq, hs, if_false, if_true,
          if_pos rfl, if_neg hs]
        ring
  intro l
  induction l with
  | nil => intro s; simp
  | cons q l ih =>
    intro s
    simp only [List.foldl_cons]
    rw [hstep s q]
    exact ih (if bget b q.1 q.2 == some p then s + a
      else if bget b q.1 q.2 == some (getOpponent p) then s - a
      else s)

theorem sidedScore_antisym (b : Board) (p : Player) (a : Int)
    (l : List (Int × Int)) :
    sidedScore b (getOpponent p) a l = - sidedScore b p a l := by
  unfold sidedScore
  simp only [getOpponent_getOpponent]
  have h := sidedScore_foldl_neg b p a l 0
  rw [neg_zero] at h
  exact h

theorem cornerAdjacentPenalty_foldl_neg (b : Board) (p : Player) (a : Int) :
    ∀ (l : List ((Int × Int) × (Int × Int))) (s : Int),
      l.foldl (fun acc pr =>
        if bget b pr.2.1 pr.2.2 == none then
          (if bget b pr.1.1 pr.1.2 == some (getOpponent p) then acc - a
           else if bget b pr.1.1 pr.1.2 == some p then acc + a
           else acc)
        else acc) (-s)
      = - l.foldl (fun acc pr =>
        if bget b pr.2.1 pr.2.2 == none then
          (if bget b pr.1.1 pr.1.2 == some p then acc - a
           else if bget b pr.1.1 pr.1.2 == some (getOpponent p) then acc + a
           else acc)
        else acc) s := by
  have hstep : ∀ (s : Int) (pr : (Int × Int) × (Int × Int)),
      (if bget b pr.2.1 pr.2.2 == none then
        (if bget b pr.1.1 pr.1.2 == some (getOpponent p) then (-s) - a
         else if bget b pr.1.1 pr.1.2 == some p then (-s) + a
         else (-s))
       else (-s))
      = -(if bget b pr.2.1 pr.2.2 == none then
          (if bget b pr.1.1 pr.1.2 == some p then s - a
           else if bget b pr.1.1 pr.1.2 == some (getOpponent p) then s + a
           else s)
         else s) := by
    intro s pr
    by_cases hcorner : (bget b pr.2.1 pr.2.2 == none) = true
    · rw [if_pos hcorner, if_pos hcorner]
      rcases hbq : bget b pr.1.1 pr.1.2 with _ | pl
      · simp
      · rcases player_cases pl p with rfl | hpl
        · have hs : ¬ (pl = getOpponent pl) := fun h => getOpponent_ne pl h.symm
          simp only [beq_iff_eq, Option.some.injEq, hs, if_false, if_true,
            if_pos rfl, if_neg hs]
          ring
        · subst hpl
          have hs : ¬ (getOpponent p = p) := getOpponent_ne p
          simp only [beq_iff_eq, Option.some.injEq, hs, if_false, if_true,
            if_pos rfl, if_neg hs]
          ring
    · rw [if_neg hcorner, if_neg hcorner]
  intro l
  induction l with
  | nil => intro s; simp
  | cons pr l ih =>
    intro s
    simp only [List.foldl_cons]
    rw [hstep s pr]
    exact ih (if bget b pr.2.1 pr.2.2 == none then
        (if bget b pr.1.1 pr.1.2 == some p then s - a
         else if bget b pr.1.1 pr.1.2 == some (getOpponent p) then s + a
         else s)
       else s)

theorem cornerAdjacentPenalty_antisym (b : Board) (p : Player) (a : Int)
    (l : List ((Int × Int) × (Int × Int))) :
    cornerAdjacentPenalty b (getOpponent p) a l
      = - cornerAdjacentPenalty b p a l := by
  unfold cornerAdjacentPenalty
  simp only [getOpponent_getOpponent]
  have h := cornerAdjacentPenalty_foldl_neg b p a l 0
  rw [neg_zero] at h
  exact h

/-- Claim C10: the static evaluator is exactly antisymmetric between the two
sides — each of its six terms contributes equal magnitude with opposite sign
for the two players. -/
theorem c10_evaluator_antisym (b : Board) (player : Player) :
    evaluateBoard b player = - evaluateBoard b (getOpponent player) := by
  unfold evaluateBoard
  rw [getOpponent_getOpponent]
  rw [sidedScore_antisym b player 100 corners,
    sidedScore_antisym b player 5 edgeCells,
    cornerAdjacentPenalty_antisym b player 25 xSquareList,
    cornerAdjacentPenalty_antisym b player 20 cSquareList]
  cases player with
  | black =>
    simp only [getOpponent]
    ring
  | white =>
    simp only [getOpponent]
    ring

/-!
The greedy strategy: stable sorting and first-maximum selection.
-/

theorem insertByDesc_perm {α : Type} (key : α → Int) (x : α) :
    ∀ (l : List α), (insertByDesc key x l).Perm (x :: l) := by
  intro l
  induction l with
  | nil => simp [insertByDesc]
  | cons y ys ih =>
    unfold insertByDesc
    by_cases h : key y ≤ key x
    · rw [if_pos h]
    · rw [if_neg h]
      exact (ih.cons y).trans (List.Perm.swap x y ys)

theorem sortDescBy_perm {α : Type} (key : α → Int) :
    ∀ (l : List α), (sortDescBy key l).Perm l := by
  intro l
  induction l with
  | nil => simp [sortDescBy]
  | cons x xs ih =>
    unfold sortDescBy
    simp only [List.foldr_cons]
    exact (insertByDesc_perm key x _).trans (ih.cons x)

theorem firstMaxBy_eq_none_iff {α β : Type} [LinearOrder β] (key : α → β)
    (l : List α) : firstMaxBy key l = none ↔ l = [] := by
  cases l with
  | nil => simp [firstMaxBy]
  | cons x xs =>
    simp only [firstMaxBy]
    constructor
    · intro h
      exfalso
      revert h
      rcases firstMaxBy key xs with _ | y
      · simp
      · by_cases hk : key x < key y <;> simp [hk]
    · intro h
      exact List.noConfusion h

theorem head_sortDescBy {α : Type} (key : α → Int) :
    ∀ (l : List α), (sortDescBy key l).head? = firstMaxBy key l := by
  intro l
  induction l with
  | nil => simp [sortDescBy, firstMaxBy]
  | cons x xs ih =>
    unfold sortDescBy at ih ⊢
    simp only [List.foldr_cons, firstMaxBy]
    rw [← ih]
    rcases xs.foldr (insertByDesc key) [] with _ | ⟨h, t⟩
    · simp [insertByDesc]
    · unfold insertByDesc
      by_cases hk : key h ≤ key x
      · rw [if_pos hk]
        have hk2 : ¬ key x < key h := by omega
        simp [hk2]
      · rw [if_neg hk]
        have hk2 : key x < key h := by omega
        simp [hk2]

/-- Claim C9: the medium-difficulty choice is the deterministic
short-circuiting cascade of the spec — first legal corner in fixed order,
else discard X-square moves under an empty corner (falling back to the
unfiltered set if that would empty it), then a maximal-flip non-corner edge
move if any edge move remains, else the maximal-flip candidate with ties
broken by enumeration order. -/
theorem c9_greedy_cascade (b : Board) (validMoves : List ValidMove) :
    getGreedyMove b validMoves = specGreedyMove b validMoves := by
  have hpoint : ∀ m : ValidMove,
      (!(xSquareList.any (fun xs => xs.1.1 == m.row && xs.1.2 == m.col))
        || (xSquareList.filter (fun xs => !(bget b xs.2.1 xs.2.2 == none))).any
            (fun xs => xs.1.1 == m.row && xs.1.2 == m.col))
      = !(xSquareList.any (fun xs =>
          xs.1.1 == m.row && xs.1.2 == m.col && (bget b xs.2.1 xs.2.2 == none))) := by
    intro m
    rw [List.any_filter]
    simp only [xSquareList, List.any_cons, List.any_nil, Bool.or_false]
    cases h1r : ((1 : Int) == m.row) <;>
      cases h6r : ((6 : Int) == m.row) <;>
      cases h1c : ((1 : Int) == m.col) <;>
      cases h6c : ((6 : Int) == m.col) <;>
      first
        | (exfalso
           simp only [beq_iff_eq, beq_eq_false_iff_ne, ne_eq] at h1r h6r h1c h6c
           omega)
        | simp
  simp only [getGreedyMove, specGreedyMove]
  cases hcm : corners.findSome? (fun c =>
      validMoves.find? (fun m => m.row == c.1 && m.col == c.2)) with
  | some m => simp only [hcm]
  | none =>
    simp only [hcm]
    have hfc : validMoves.filter (fun m =>
        !(xSquareList.any (fun xs => xs.1.1 == m.row && xs.1.2 == m.col))
          || (xSquareList.filter (fun xs => !(bget b xs.2.1 xs.2.2 == none))).any
              (fun xs => xs.1.1 == m.row && xs.1.2 == m.col))
        = validMoves.filter (fun m => !(xSquareList.any (fun xs =>
            xs.1.1 == m.row && xs.1.2 == m.col && (bget b xs.2.1 xs.2.2 == none)))) :=
      List.filter_congr (fun m _ => hpoint m)
    rw [hfc]
    set kept := validMoves.filter (fun m => !(xSquareList.any (fun xs =>
        xs.1.1 == m.row && xs.1.2 == m.col && (bget b xs.2.1 xs.2.2 == none))))
      with hkept
    have hmc : (if 0 < kept.length then kept else validMoves)
        = (if kept = [] then validMoves else kept) := by
      by_cases hk : kept = []
      · rw [if_pos hk, if_neg (by rw [hk]; simp)]
      · rw [if_neg hk, if_pos (List.length_pos.mpr hk)]
    rw [hmc]
    set cand := (if kept = [] then validMoves else kept) with hcand
    set edges := cand.filter (fun m =>
      (m.row == 0 || m.row == 7 || m.col == 0 || m.col == 7)
        && !(corners.any (fun c => c.1 == m.row && c.2 == m.col))) with hedges
    by_cases he : edges = []
    · have hfm : firstMaxBy (fun m => (m.flipsCount : Int)) edges = none :=
        (firstMaxBy_eq_none_iff _ _).mpr he
      rw [if_neg (by rw [he]; simp), hfm]
      rw [← head_sortDescBy]
    · have hlen : 0 < edges.length := List.length_pos.mpr he
      rw [if_pos hlen]
      rcases hfm : firstMaxBy (fun m => (m.flipsCount : Int)) edges with _ | m2
      · exact absurd ((firstMaxBy_eq_none_iff _ _).mp hfm) he
      · rw [head_sortDescBy, hfm]
        rfl

/-!
The AI dispatcher's error contract.
-/

theorem firstMaxBy_mem {α β : Type} [LinearOrder β] (key : α → β) :
    ∀ (l : List α) (y : α), firstMaxBy key l = some y → y ∈ l := by
  intro l
  induction l with
  | nil => intro y h; exact Option.noConfusion h
  | cons x xs ih =>
    intro y h
    simp only [firstMaxBy] at h
    rcases hm : firstMaxBy key xs with _ | z <;> rw [hm] at h
    · simp only [Option.some.injEq] at h
      rw [← h]
      exact List.mem_cons_self x xs
    · by_cases hk : key x < key z
      · simp only [hk, if_true, Option.some.injEq] at h
        rw [← h]
        exact List.mem_cons_of_mem x (ih z hm)
      · simp only [hk, if_false, Option.some.injEq] at h
        rw [← h]
        exact List.mem_cons_self x xs

theorem getGreedyMove_some_mem (b : Board) (validMoves : List ValidMove)
    (h : validMoves ≠ []) :
    ∃ m ∈ validMoves, getGreedyMove b validMoves = some (m.row, m.col) := by
  simp only [getGreedyMove]
  cases hcm : corners.findSome? (fun c =>
      validMoves.find? (fun m => m.row == c.1 && m.col == c.2)) with
  | some m =>
    simp only [hcm]
    obtain ⟨c, _, hfind⟩ := List.exists_of_findSome?_eq_some hcm
    exact ⟨m, List.mem_of_find?_eq_some hfind, rfl⟩
  | none =>
    simp only [hcm]
    set nonX := validMoves.filter (fun m =>
      !(xSquareList.any (fun xs => xs.1.1 == m.row && xs.1.2 == m.col))
        || (xSquareList.filter (fun xs => !(bget b xs.2.1 xs.2.2 == none))).any
            (fun xs => xs.1.1 == m.row && xs.1.2 == m.col)) with hnonX
    set mtc := (if 0 < nonX.length then nonX else validMoves) with hmtc
    have hmtc_sub : ∀ x, x ∈ mtc → x ∈ validMoves := by
      intro x hx
      rw [hmtc] at hx
      by_cases hc : 0 < nonX.length
      · rw [if_pos hc] at hx
        rw [hnonX] at hx
        exact List.mem_of_mem_filter hx
      · rw [if_neg hc] at hx
        exact hx
    have hmtc_ne : mtc ≠ [] := by
      rw [hmtc]
      by_cases hc : 0 < nonX.length
      · rw [if_pos hc]
        intro hnil
        rw [hnil] at hc
        simp at hc
      · rw [if_neg hc]
        exact h
    set edges := mtc.filter (fun m =>
      (m.row == 0 || m.row == 7 || m.col == 0 || m.col == 7)
        && !(corners.any (fun c => c.1 == m.row && c.2 == m.col))) with hedges
    by_cases he : 0 < edges.length
    · rw [if_pos he]
      have hene : edges ≠ [] := List.length_pos.mp he
      rcases hfm : firstMaxBy (fun m => (m.flipsCount : Int)) edges with _ | m2
      · exact absurd ((firstMaxBy_eq_none_iff _ _).mp hfm) hene
      · refine ⟨m2, ?_, ?_⟩
        · apply hmtc_sub
          rw [hedges] at hfm
          exact List.mem_of_mem_filter (firstMaxBy_mem _ _ _ hfm)
        · rw [head_sortDescBy, hfm]
          rfl
    · rw [if_neg he]
      rcases hfm : firstMaxBy (fun m => (m.flipsCount : Int)) mtc with _ | m2
      · exact absurd ((firstMaxBy_eq_none_iff _ _).mp hfm) hmtc_ne
      · refine ⟨m2, hmtc_sub m2 (firstMaxBy_mem _ _ _ hfm), ?_⟩
        rw [head_sortDescBy, hfm]
        rfl

theorem bestLoop_some (eval : ValidMove → Score) :
    ∀ (l : List ValidMove) (best : Option (Int × Int)) (s : Score)
      (mv : Int × Int), bestLoop eval l best s = some mv →
      best = some mv ∨ ∃ m ∈ l, mv = (m.row, m.col) := by
  intro l
  induction l with
  | nil =>
    intro best s mv h
    unfold bestLoop at h
    exact Or.inl h
  | cons m rest ih =>
    intro best s mv h
    unfold bestLoop at h
    by_cases hc : s < eval m
    · rw [if_pos hc] at h
      rcases ih _ _ _ h with h1 | ⟨m2, hm2, rfl⟩
      · rw [Option.some.injEq] at h1
        exact Or.inr ⟨m, List.mem_cons_self m rest, h1.symm⟩
      · exact Or.inr ⟨m2, List.mem_cons_of_mem m hm2, rfl⟩
    · rw [if_neg hc] at h
      rcases ih _ _ _ h with h1 | ⟨m2, hm2, rfl⟩
      · exact Or.inl h1
      · exact Or.inr ⟨m2, List.mem_cons_of_mem m hm2, rfl⟩

theorem getMinimaxMove_some_mem (b : Board) (player : Player)
    (validMoves : List ValidMove) (h : validMoves ≠ []) :
    ∃ m ∈ validMoves, getMinimaxMove b player validMoves
      = some (m.row, m.col) := by
  simp only [getMinimaxMove]
  rcases hbl : bestLoop
      (fun m => minimax player 5 (simulateMove b m.row m.col player) ⊥ ⊤ false)
      (orderMovesByPreference validMoves b) none ⊥ with _ | mv
  · rcases validMoves with _ | ⟨m0, rest⟩
    · exact absurd rfl h
    · refine ⟨m0, List.mem_cons_self m0 rest, ?_⟩
      rfl
  · rcases bestLoop_some _ _ _ _ _ hbl with h1 | ⟨m2, hm2, rfl⟩
    · exact Option.noConfusion h1
    · have hm2' : m2 ∈ validMoves := by
        have hperm : (orderMovesByPreference validMoves b).Perm validMoves := by
          unfold orderMovesByPreference
          exact sortDescBy_perm _ validMoves
        exact hperm.mem_iff.mp hm2
      refine ⟨m2, hm2', ?_⟩
      rfl

/-- Claim C7: `getAIMove` fails exactly when the side has no legal move, and
otherwise returns the coordinates of some enumerated legal move, for each of
the three difficulties (the easy policy's random draw is modelled by the
arbitrary index `randIdx`). -/
theorem c7_ai_error_contract (b : Board) (player : Player)
    (difficulty : Difficulty) (randIdx : Nat) :
    (getValidMoves b player = [] →
      getAIMove b player difficulty randIdx
        = Except.error ("No valid moves available for AI")) ∧
    (getValidMoves b player ≠ [] →
      ∃ m ∈ getValidMoves b player,
        getAIMove b player difficulty randIdx = Except.ok (m.row, m.col)) := by
  constructor
  · intro h
    unfold getAIMove
    rw [if_pos (by rw [h]; rfl)]
  · intro h
    have hlen : ¬ (getValidMoves b player).length = 0 := by
      intro hc
      exact h (List.length_eq_zero.mp hc)
    unfold getAIMove
    rw [if_neg hlen]
    cases difficulty with
    | easy =>
      have hpos : 0 < (getValidMoves b player).length := by omega
      have hidx : randIdx % (getValidMoves b player).length
          < (getValidMoves b player).length := Nat.mod_lt _ hpos
      refine ⟨(getValidMoves b player)[randIdx % (getValidMoves b player).length],
        List.getElem_mem hidx, ?_⟩
      rw [List.getElem?_eq_getElem hidx]
    | medium =>
      obtain ⟨m, hm, hg⟩ := getGreedyMove_some_mem b (getValidMoves b player) h
      refine ⟨m, hm, ?_⟩
      rw [hg]
    | hard =>
      obtain ⟨m, hm, hg⟩ := getMinimaxMove_some_mem b player
        (getValidMoves b player) h
      refine ⟨m, hm, ?_⟩
      rw [hg]

/-!
Alpha-beta pruning computes plain minimax: the Knuth-Moore style
window lemmas for the two loops, then the correctness of `minimax` itself
against the spec-modelled `plainMinimax`.
-/

theorem abMaxLoop_km (eval : ValidMove → Score → Score)
    (v : ValidMove → Score) (beta : Score) :
    ∀ (l : List ValidMove) (s a : Score), s ≤ a → a < beta →
      (∀ m ∈ l, ∀ x : Score, x < beta →
        (eval m x ≤ x → v m ≤ eval m x) ∧
        (beta ≤ eval m x → eval m x ≤ v m) ∧
        (x < eval m x → eval m x < beta → eval m x = v m)) →
      s ≤ abMaxLoop eval beta l s a ∧
      (abMaxLoop eval beta l s a ≤ a →
        max s ((l.map v).foldr max ⊥) ≤ abMaxLoop eval beta l s a) ∧
      (beta ≤ abMaxLoop eval beta l s a →
        abMaxLoop eval beta l s a ≤ max s ((l.map v).foldr max ⊥)) ∧
      (a < abMaxLoop eval beta l s a → abMaxLoop eval beta l s a < beta →
        abMaxLoop eval beta l s a = max s ((l.map v).foldr max ⊥)) := by
  intro l
  induction l with
  | nil =>
    intro s a hsa hab _
    simp only [abMaxLoop, List.map_nil, List.foldr_nil]
    refine ⟨le_refl s, ?_, ?_, ?_⟩
    · intro _
      rw [max_eq_left bot_le]
    · intro _
      exact le_max_left s ⊥
    · intro _ _
      rw [max_eq_left bot_le]
  | cons m rest ih =>
    intro s a hsa hab hev
    have Tm := hev m (List.mem_cons_self m rest) a hab
    have hevrest : ∀ m' ∈ rest, ∀ x : Score, x < beta →
        (eval m' x ≤ x → v m' ≤ eval m' x) ∧
        (beta ≤ eval m' x → eval m' x ≤ v m') ∧
        (x < eval m' x → eval m' x < beta → eval m' x = v m') :=
      fun m' hm' => hev m' (List.mem_cons_of_mem m hm')
    simp only [abMaxLoop, List.map_cons, List.foldr_cons]
    set score := eval m a with hscore
    set X := ((rest.map v).foldr max ⊥) with hX
    by_cases hcut : beta ≤ max a score
    · rw [if_pos hcut]
      have hbs : beta ≤ score := by
        rcases le_max_iff.mp hcut with h | h
        · exact absurd h (not_le.mpr hab)
        · exact h
      have hsv : score ≤ v m := Tm.2.1 hbs
      refine ⟨le_max_left s score, ?_, ?_, ?_⟩
      · intro hra
        exfalso
        have : beta ≤ a := le_trans hbs (le_trans (le_max_right s score) hra)
        exact absurd this (not_le.mpr hab)
      · intro _
        calc max s score ≤ max s (v m) := max_le_max (le_refl s) hsv
        _ ≤ max s (max (v m) X) := max_le_max (le_refl s) (le_max_left _ _)
      · intro _ hrb
        exfalso
        have : beta ≤ max s score := le_trans hbs (le_max_right s score)
        exact absurd hrb (not_lt.mpr this)
    · rw [if_neg hcut]
      have hab2 : max a score < beta := not_le.mp hcut
      have hsb : score < beta := lt_of_le_of_lt (le_max_right a score) hab2
      have hsa2 : max s score ≤ max a score := max_le_max hsa (le_refl score)
      obtain ⟨i1, i2, i3, i4⟩ := ih (max s score) (max a score) hsa2 hab2 hevrest
      set r := abMaxLoop eval beta rest (max s score) (max a score) with hr
      refine ⟨le_trans (le_max_left s score) i1, ?_, ?_, ?_⟩
      · -- fail low
        intro hra
        have hra2 : r ≤ max a score := le_trans hra (le_max_left a score)
        have hmax : max (max s score) X ≤ r := i2 hra2
        have hsr : s ≤ r := le_trans (le_max_left s score) (le_trans (le_max_left _ _) hmax)
        have hscr : score ≤ r := le_trans (le_max_right s score) (le_trans (le_max_left _ _) hmax)
        have hXr : X ≤ r := le_trans (le_max_right _ _) hmax
        have hsca : score ≤ a := le_trans hscr hra
        have hvm : v m ≤ score := Tm.1 hsca
        exact max_le hsr (max_le (le_trans hvm hscr) hXr)
      · -- fail high
        intro hbr
        have hup : r ≤ max (max s score) X := i3 hbr
        by_cases hsca : score ≤ a
        · -- fail-low child: v m ≤ score, but score < beta ≤ r
          have hscr : score < r := lt_of_lt_of_le hsb hbr
          rcases le_max_iff.mp hup with h1 | h1
          · rcases le_max_iff.mp h1 with h2 | h2
            · exact le_trans h2 (le_max_left s _)
            · exact absurd h2 (not_le.mpr hscr)
          · exact le_trans h1 (le_trans (le_max_right (v m) X) (le_max_right s _))
        · -- exact child: score = v m
          have hax : a < score := not_le.mp hsca
          have hexact : score = v m := Tm.2.2 hax hsb
          rw [hexact] at hup
          calc r ≤ max (max s (v m)) X := hup
          _ = max s (max (v m) X) := max_assoc s (v m) X
      · -- exact window
        intro har hrb
        by_cases hra2 : r ≤ max a score
        · -- the recursion failed low relative to its own window
          have hmax : max (max s score) X ≤ r := i2 hra2
          have hscr : score ≤ r := le_trans (le_max_right s score)
            (le_trans (le_max_left _ _) hmax)
          have hrs : r ≤ score := by
            rcases le_max_iff.mp hra2 with h | h
            · exact absurd h (not_le.mpr har)
            · exact h
          have hreq : r = score := le_antisymm hrs hscr
          have hax : a < score := hreq ▸ har
          have hexact : score = v m := Tm.2.2 hax hsb
          have hsr : s ≤ r := le_trans (le_max_left s score)
            (le_trans (le_max_left _ _) hmax)
          have hXr : X ≤ r := le_trans (le_max_right _ _) hmax
          apply le_antisymm
          · apply le_max_of_le_right
            apply le_max_of_le_left
            rw [← hexact, ← hreq]
          · exact max_le hsr (max_le (by rw [← hexact, hreq]) hXr)
        · have har2 : max a score < r := not_le.mp hra2
          have hreq : r = max (max s score) X := i4 har2 hrb
          by_cases hsca : score ≤ a
          · -- score is dominated: r = max s X
            have hvm : v m ≤ score := Tm.1 hsca
            have hscr : score < r := lt_of_le_of_lt
              (le_trans hsca (le_max_left a score)) har2
            have hrmsX : r = max s X := by
              apply le_antisymm
              · rw [hreq]
                rcases max_choice (max s score) X with h | h
                · rw [h]
                  rcases max_choice s score with h2 | h2
                  · rw [h2]
                    exact le_max_left s X
                  · exfalso
                    rw [hreq, h, h2] at hscr
                    exact lt_irrefl score hscr
                · rw [h]
                  exact le_max_right s X
              · rw [hreq]
                exact max_le_max (le_max_left s score) (le_refl X)
            rw [hrmsX]
            apply le_antisymm
            · exact max_le_max (le_refl s) (le_max_right (v m) X)
            · apply max_le (le_max_left s _)
              apply max_le
              · calc v m ≤ score := hvm
                _ ≤ max a score := le_max_right a score
                _ ≤ r := le_of_lt har2
                _ = max s X := hrmsX
              · exact le_max_right s X
          · have hax : a < score := not_le.mp hsca
            have hexact : score = v m := Tm.2.2 hax hsb
            rw [hreq, hexact]
            exact max_assoc s (v m) X

theorem abMinLoop_km (eval : ValidMove → Score → Score)
    (v : ValidMove → Score) (alpha : Score) :
    ∀ (l : List ValidMove) (s bt : Score), bt ≤ s → alpha < bt →
      (∀ m ∈ l, ∀ x : Score, alpha < x →
        (eval m x ≤ alpha → v m ≤ eval m x) ∧
        (x ≤ eval m x → eval m x ≤ v m) ∧
        (alpha < eval m x → eval m x < x → eval m x = v m)) →
      abMinLoop eval alpha l s bt ≤ s ∧
      (bt ≤ abMinLoop eval alpha l s bt →
        abMinLoop eval alpha l s bt ≤ min s ((l.map v).foldr min ⊤)) ∧
      (abMinLoop eval alpha l s bt ≤ alpha →
        min s ((l.map v).foldr min ⊤) ≤ abMinLoop eval alpha l s bt) ∧
      (alpha < abMinLoop eval alpha l s bt →
        abMinLoop eval alpha l s bt < bt →
        abMinLoop eval alpha l s bt = min s ((l.map v).foldr min ⊤)) := by
  intro l
  induction l with
  | nil =>
    intro s bt hbs hab _
    simp only [abMinLoop, List.map_nil, List.foldr_nil]
    refine ⟨le_refl s, ?_, ?_, ?_⟩
    · intro _
      rw [min_eq_left le_top]
    · intro _
      exact min_le_left s ⊤
    · intro _ _
      rw [min_eq_left le_top]
  | cons m rest ih =>
    intro s bt hbs hab hev
    have Tm := hev m (List.mem_cons_self m rest) bt hab
    have hevrest : ∀ m' ∈ rest, ∀ x : Score, alpha < x →
        (eval m' x ≤ alpha → v m' ≤ eval m' x) ∧
        (x ≤ eval m' x → eval m' x ≤ v m') ∧
        (alpha < eval m' x → eval m' x < x → eval m' x = v m') :=
      fun m' hm' => hev m' (List.mem_cons_of_mem m hm')
    simp only [abMinLoop, List.map_cons, List.foldr_cons]
    set score := eval m bt with hscore
    set X := ((rest.map v).foldr min ⊤) with hX
    by_cases hcut : min bt score ≤ alpha
    · rw [if_pos hcut]
      have hbs2 : score ≤ alpha := by
        rcases min_le_iff.mp hcut with h | h
        · exact absurd h (not_le.mpr hab)
        · exact h
      have hsv : v m ≤ score := Tm.1 hbs2
      refine ⟨min_le_left s score, ?_, ?_, ?_⟩
      · intro hra
        exfalso
        have : bt ≤ alpha := le_trans (le_trans hra (min_le_right s score)) hbs2
        exact absurd this (not_le.mpr hab)
      · intro _
        calc min s (min (v m) X) ≤ min s (v m) :=
          min_le_min (le_refl s) (min_le_left _ _)
        _ ≤ min s score := min_le_min (le_refl s) hsv
      · intro hrb _
        exfalso
        have : min s score ≤ alpha := le_trans (min_le_right s score) hbs2
        exact absurd hrb (not_lt.mpr this)
    · rw [if_neg hcut]
      have hab2 : alpha < min bt score := not_le.mp hcut
      have hsb : alpha < score := lt_of_lt_of_le hab2 (min_le_right bt score)
      have hsa2 : min bt score ≤ min s score := min_le_min hbs (le_refl score)
      obtain ⟨i1, i2, i3, i4⟩ := ih (min s score) (min bt score) hsa2 hab2 hevrest
      set r := abMinLoop eval alpha rest (min s score) (min bt score) with hr
      refine ⟨le_trans i1 (min_le_left s score), ?_, ?_, ?_⟩
      · -- fail high (r at or above bt)
        intro hra
        have hra2 : min bt score ≤ r := le_trans (min_le_left bt score) hra
        have hmax : r ≤ min (min s score) X := i2 hra2
        have hsr : r ≤ s := le_trans hmax (le_trans (min_le_left _ _) (min_le_left s score))
        have hscr : r ≤ score := le_trans hmax (le_trans (min_le_left _ _) (min_le_right s score))
        have hXr : r ≤ X := le_trans hmax (min_le_right _ _)
        have hsca : bt ≤ score := le_trans hra hscr
        have hvm : score ≤ v m := Tm.2.1 hsca
        exact le_min hsr (le_min (le_trans hscr hvm) hXr)
      · -- fail low (r at or below alpha)
        intro hbr
        have hup : min (min s score) X ≤ r := i3 hbr
        by_cases hsca : bt ≤ score
        · have hscr : r < score := lt_of_le_of_lt hbr hsb
          rcases min_le_iff.mp hup with h1 | h1
          · rcases min_le_iff.mp h1 with h2 | h2
            · exact le_trans (min_le_left s _) h2
            · exact absurd h2 (not_le.mpr hscr)
          · exact le_trans (le_trans (min_le_right s _) (min_le_right (v m) X)) h1
        · have hax : score < bt := not_le.mp hsca
          have hexact : score = v m := Tm.2.2 hsb hax
          rw [hexact] at hup
          calc min s (min (v m) X) = min (min s (v m)) X := (min_assoc s (v m) X).symm
          _ ≤ r := hup
      · -- exact window
        intro har hrb
        by_cases hra2 : min bt score ≤ r
        · have hmax : r ≤ min (min s score) X := i2 hra2
          have hscr : r ≤ score := le_trans hmax
            (le_trans (min_le_left _ _) (min_le_right s score))
          have hrs : score ≤ r := by
            rcases min_le_iff.mp hra2 with h | h
            · exact absurd h (not_le.mpr hrb)
            · exact h
          have hreq : r = score := le_antisymm hscr hrs
          have hax : score < bt := hreq ▸ hrb
          have hexact : score = v m := Tm.2.2 hsb hax
          have hsr : r ≤ s := le_trans hmax
            (le_trans (min_le_left _ _) (min_le_left s score))
          have hXr : r ≤ X := le_trans hmax (min_le_right _ _)
          apply le_antisymm
          · exact le_min hsr (le_min (by rw [← hexact, hreq]) hXr)
          · apply min_le_of_right_le
            apply min_le_of_left_le
            rw [← hexact, ← hreq]
        · have har2 : r < min bt score := not_le.mp hra2
          have hreq : r = min (min s score) X := i4 har har2
          by_cases hsca : bt ≤ score
          · have hvm : score ≤ v m := Tm.2.1 hsca
            have hscr : r < score := lt_of_lt_of_le har2
              (le_trans (min_le_left bt score) hsca)
            have hrmsX : r = min s X := by
              apply le_antisymm
              · rw [hreq]
                exact min_le_min (min_le_left s score) (le_refl X)
              · rw [hreq]
                rcases min_choice (min s score) X with h | h
                · rw [h]
                  rcases min_choice s score with h2 | h2
                  · rw [h2]
                    exact min_le_left s X
                  · exfalso
                    rw [hreq, h, h2] at hscr
                    exact lt_irrefl score hscr
                · rw [h]
                  exact min_le_right s X
            rw [hrmsX]
            apply le_antisymm
            · apply le_min (min_le_left s _)
              apply le_min
              · calc min s X = r := hrmsX.symm
                _ ≤ min bt score := le_of_lt har2
                _ ≤ score := min_le_right bt score
                _ ≤ v m := hvm
              · exact min_le_right s X
            · exact min_le_min (le_refl s) (min_le_right (v m) X)
          · have hax : score < bt := not_le.mp hsca
            have hexact : score = v m := Tm.2.2 hsb hax
            rw [hreq, hexact]
            exact min_assoc s (v m) X

theorem foldr_max_perm {l l2 : List Score} (h : l.Perm l2) :
    l.foldr max ⊥ = l2.foldr max ⊥ := by
  induction h with
  | nil => rfl
  | cons x _ ih => simp only [List.foldr_cons, ih]
  | swap x y t =>
    simp only [List.foldr_cons]
    rw [max_left_comm]
  | trans _ _ ih1 ih2 => rw [ih1, ih2]

theorem foldr_min_perm {l l2 : List Score} (h : l.Perm l2) :
    l.foldr min ⊤ = l2.foldr min ⊤ := by
  induction h with
  | nil => rfl
  | cons x _ ih => simp only [List.foldr_cons, ih]
  | swap x y t =>
    simp only [List.foldr_cons]
    rw [min_left_comm]
  | trans _ _ ih1 ih2 => rw [ih1, ih2]

theorem foldr_max_lt_top {l : List Score} (h : ∀ x ∈ l, x < ⊤) :
    l.foldr max ⊥ < ⊤ := by
  induction l with
  | nil => exact bot_lt_top
  | cons x t ih =>
    simp only [List.foldr_cons]
    exact max_lt (h x (List.mem_cons_self x t))
      (ih (fun y hy => h y (List.mem_cons_of_mem x hy)))

theorem bot_lt_foldr_max {l : List Score} (hne : l ≠ [])
    (h : ∀ x ∈ l, ⊥ < x) : ⊥ < l.foldr max ⊥ := by
  cases l with
  | nil => exact absurd rfl hne
  | cons x t =>
    simp only [List.foldr_cons]
    exact lt_max_of_lt_left (h x (List.mem_cons_self x t))

theorem bot_lt_foldr_min {l : List Score} (h : ∀ x ∈ l, ⊥ < x) :
    ⊥ < l.foldr min ⊤ := by
  induction l with
  | nil => exact bot_lt_top
  | cons x t ih =>
    simp only [List.foldr_cons]
    exact lt_min (h x (List.mem_cons_self x t))
      (ih (fun y hy => h y (List.mem_cons_of_mem x hy)))

theorem foldr_min_lt_top {l : List Score} (hne : l ≠ [])
    (h : ∀ x ∈ l, x < ⊤) : l.foldr min ⊤ < ⊤ := by
  cases l with
  | nil => exact absurd rfl hne
  | cons x t =>
    simp only [List.foldr_cons]
    exact min_lt_of_left_lt (h x (List.mem_cons_self x t))

theorem toScore_bounds (n : Int) : ⊥ < toScore n ∧ toScore n < ⊤ := by
  constructor
  · exact WithBot.bot_lt_coe _
  · have h1 : ((n : WithTop Int) : Score) < ((⊤ : WithTop Int) : Score) := by
      rw [WithBot.coe_lt_coe]
      exact WithTop.coe_lt_top n
    exact h1

theorem minimax_gameover (ai : Player) (depth : Nat) (b : Board)
    (alpha beta : Score) (m : Bool) (h : isGameOver b = true) :
    minimax ai depth b alpha beta m = plainMinimax ai depth b m := by
  cases depth with
  | zero => simp only [minimax, plainMinimax, h, if_true]
  | succ d => simp only [minimax, plainMinimax, h, if_true]

theorem minimax_depth0 (ai : Player) (b : Board) (alpha beta : Score)
    (m : Bool) (h : isGameOver b = false) :
    minimax ai 0 b alpha beta m = toScore (evaluateBoard b ai) := by
  simp only [minimax, h, Bool.false_eq_true, if_false]

theorem plainMinimax_depth0 (ai : Player) (b : Board) (m : Bool)
    (h : isGameOver b = false) :
    plainMinimax ai 0 b m = toScore (evaluateBoard b ai) := by
  simp only [plainMinimax, h, Bool.false_eq_true, if_false]

theorem minimax_pass (ai : Player) (d : Nat) (b : Board)
    (alpha beta : Score) (m : Bool) (h : isGameOver b = false)
    (hmoves : (getValidMoves b (if m then ai else getOpponent ai)).length = 0) :
    minimax ai (d + 1) b alpha beta m = minimax ai d b alpha beta (!m) := by
  simp only [minimax, h, Bool.false_eq_true, if_false]
  rw [if_pos hmoves]

theorem plainMinimax_pass (ai : Player) (d : Nat) (b : Board) (m : Bool)
    (h : isGameOver b = false)
    (hmoves : (getValidMoves b (if m then ai else getOpponent ai)).length = 0) :
    plainMinimax ai (d + 1) b m = plainMinimax ai d b (!m) := by
  simp only [plainMinimax, h, Bool.false_eq_true, if_false]
  rw [if_pos hmoves]

theorem minimax_maxstep (ai : Player) (d : Nat) (b : Board)
    (alpha beta : Score) (h : isGameOver b = false)
    (hmoves : ¬ (getValidMoves b ai).length = 0) :
    minimax ai (d + 1) b alpha beta true
      = abMaxLoop
          (fun mv a =>
            minimax ai d (simulateMove b mv.row mv.col ai) a beta false)
          beta (orderMovesByPreference (getValidMoves b ai) b) ⊥ alpha := by
  simp only [minimax, h, Bool.false_eq_true, if_false, if_true]
  rw [if_neg hmoves]

theorem minimax_minstep (ai : Player) (d : Nat) (b : Board)
    (alpha beta : Score) (h : isGameOver b = false)
    (hmoves : ¬ (getValidMoves b (getOpponent ai)).length = 0) :
    minimax ai (d + 1) b alpha beta false
      = abMinLoop
          (fun mv bt =>
            minimax ai d (simulateMove b mv.row mv.col (getOpponent ai))
              alpha bt true)
          alpha (orderMovesByPreference (getValidMoves b (getOpponent ai)) b)
          ⊤ beta := by
  simp only [minimax, h, Bool.false_eq_true, if_false]
  rw [if_neg hmoves]

theorem plainMinimax_maxstep (ai : Player) (d : Nat) (b : Board)
    (h : isGameOver b = false)
    (hmoves : ¬ (getValidMoves b ai).length = 0) :
    plainMinimax ai (d + 1) b true
      = ((getValidMoves b ai).map (fun mv =>
          plainMinimax ai d (simulateMove b mv.row mv.col ai) false)).foldr
            max ⊥ := by
  simp only [plainMinimax, h, Bool.false_eq_true, if_false, if_true]
  rw [if_neg hmoves]

theorem plainMinimax_minstep (ai : Player) (d : Nat) (b : Board)
    (h : isGameOver b = false)
    (hmoves : ¬ (getValidMoves b (getOpponent ai)).length = 0) :
    plainMinimax ai (d + 1) b false
      = ((getValidMoves b (getOpponent ai)).map (fun mv =>
          plainMinimax ai d (simulateMove b mv.row mv.col (getOpponent ai))
            true)).foldr min ⊤ := by
  simp only [plainMinimax, h, Bool.false_eq_true, if_false]
  rw [if_neg hmoves]

theorem plainMinimax_gameover_value (ai : Player) (depth : Nat) (b : Board)
    (m : Bool) (h : isGameOver b = true) :
    ∃ n : Int, plainMinimax ai depth b m = toScore n := by
  have hunf : plainMinimax ai depth b m
      = (match getWinner b with
        | some w =>
          if w = ai then toScore (10000 + (depth : Int))
          else if w = getOpponent ai then toScore (-10000 - (depth : Int))
          else toScore 0
        | none => toScore 0) := by
    cases depth with
    | zero => simp only [plainMinimax, h, if_true]
    | succ d => simp only [plainMinimax, h, if_true]
  rw [hunf]
  rcases getWinner b with _ | w
  · exact ⟨0, rfl⟩
  · by_cases h1 : w = ai
    · exact ⟨10000 + (depth : Int), by simp [h1]⟩
    · by_cases h2 : w = getOpponent ai
      · exact ⟨-10000 - (depth : Int), by simp [h1, h2, getOpponent_ne ai]⟩
      · exact ⟨0, by simp [h1, h2]⟩

theorem plainMinimax_bounds :
    ∀ (depth : Nat) (b : Board) (ai : Player) (m : Bool),
      ⊥ < plainMinimax ai depth b m ∧ plainMinimax ai depth b m < ⊤ := by
  intro depth
  induction depth with
  | zero =>
    intro b ai m
    by_cases h : isGameOver b = true
    · obtain ⟨n, hn⟩ := plainMinimax_gameover_value ai 0 b m h
      rw [hn]
      exact toScore_bounds n
    · rw [plainMinimax_depth0 ai b m (by simpa using h)]
      exact toScore_bounds _
  | succ d ih =>
    intro b ai m
    by_cases h : isGameOver b = true
    · obtain ⟨n, hn⟩ := plainMinimax_gameover_value ai (d + 1) b m h
      rw [hn]
      exact toScore_bounds n
    · have h' : isGameOver b = false := by simpa using h
      by_cases hmoves : (getValidMoves b (if m then ai else getOpponent ai)).length = 0
      · rw [plainMinimax_pass ai d b m h' hmoves]
        exact ih b ai (!m)
      · cases m with
        | true =>
          have hmoves' : ¬ (getValidMoves b ai).length = 0 := by
            simpa using hmoves
          rw [plainMinimax_maxstep ai d b h' hmoves']
          have hne : ((getValidMoves b ai).map (fun mv =>
              plainMinimax ai d (simulateMove b mv.row mv.col ai) false)) ≠ [] := by
            intro hnil
            apply hmoves'
            rw [← List.length_map (getValidMoves b ai) (fun mv =>
              plainMinimax ai d (simulateMove b mv.row mv.col ai) false), hnil]
            rfl
          constructor
          · apply bot_lt_foldr_max hne
            intro x hx
            obtain ⟨mv, _, rfl⟩ := List.mem_map.mp hx
            exact (ih _ ai false).1
          · apply foldr_max_lt_top
            intro x hx
            obtain ⟨mv, _, rfl⟩ := List.mem_map.mp hx
            exact (ih _ ai false).2
        | false =>
          have hmoves' : ¬ (getValidMoves b (getOpponent ai)).length = 0 := by
            simpa using hmoves
          rw [plainMinimax_minstep ai d b h' hmoves']
          have hne : ((getValidMoves b (getOpponent ai)).map (fun mv =>
              plainMinimax ai d (simulateMove b mv.row mv.col (getOpponent ai))
                true)) ≠ [] := by
            intro hnil
            apply hmoves'
            rw [← List.length_map (getValidMoves b (getOpponent ai)) (fun mv =>
              plainMinimax ai d (simulateMove b mv.row mv.col (getOpponent ai))
                true), hnil]
            rfl
          constructor
          · apply bot_lt_foldr_min
            intro x hx
            obtain ⟨mv, _, rfl⟩ := List.mem_map.mp hx
            exact (ih _ ai true).1
          · apply foldr_min_lt_top hne
            intro x hx
            obtain ⟨mv, _, rfl⟩ := List.mem_map.mp hx
            exact (ih _ ai true).2

theorem triple_of_eq {r v alpha beta : Score} (h : r = v) :
    (r ≤ alpha → v ≤ r) ∧ (beta ≤ r → r ≤ v) ∧
    (alpha < r → r < beta → r = v) :=
  ⟨fun _ => h ▸ le_rfl, fun _ => h ▸ le_rfl, fun _ _ => h⟩

theorem minimax_km :
    ∀ (depth : Nat) (b : Board) (ai : Player) (m : Bool)
      (alpha beta : Score), alpha < beta →
      (minimax ai depth b alpha beta m ≤ alpha →
        plainMinimax ai depth b m ≤ minimax ai depth b alpha beta m) ∧
      (beta ≤ minimax ai depth b alpha beta m →
        minimax ai depth b alpha beta m ≤ plainMinimax ai depth b m) ∧
      (alpha < minimax ai depth b alpha beta m →
        minimax ai depth b alpha beta m < beta →
        minimax ai depth b alpha beta m = plainMinimax ai depth b m) := by
  intro depth
  induction depth with
  | zero =>
    intro b ai m alpha beta _
    by_cases h : isGameOver b = true
    · exact triple_of_eq (minimax_gameover ai 0 b alpha beta m h)
    · have h' : isGameOver b = false := by simpa using h
      exact triple_of_eq (by
        rw [minimax_depth0 ai b alpha beta m h', plainMinimax_depth0 ai b m h'])
  | succ d ih =>
    intro b ai m alpha beta hab
    by_cases h : isGameOver b = true
    · exact triple_of_eq (minimax_gameover ai (d + 1) b alpha beta m h)
    · have h' : isGameOver b = false := by simpa using h
      by_cases hmoves :
          (getValidMoves b (if m then ai else getOpponent ai)).length = 0
      · rw [minimax_pass ai d b alpha beta m h' hmoves,
          plainMinimax_pass ai d b m h' hmoves]
        exact ih b ai (!m) alpha beta hab
      · cases m with
        | true =>
          have hmoves' : ¬ (getValidMoves b ai).length = 0 := by
            simpa using hmoves
          rw [minimax_maxstep ai d b alpha beta h' hmoves',
            plainMinimax_maxstep ai d b h' hmoves']
          have hfold : (((orderMovesByPreference (getValidMoves b ai) b).map
              (fun mv =>
                plainMinimax ai d (simulateMove b mv.row mv.col ai)
                  false)).foldr max ⊥)
              = (((getValidMoves b ai).map (fun mv =>
                plainMinimax ai d (simulateMove b mv.row mv.col ai)
                  false)).foldr max ⊥) :=
            foldr_max_perm
              ((sortDescBy_perm (fun mv => getMovePriority b mv)
                (getValidMoves b ai)).map _)
          obtain ⟨j1, j2, j3, j4⟩ := abMaxLoop_km
            (fun mv a =>
              minimax ai d (simulateMove b mv.row mv.col ai) a beta false)
            (fun mv =>
              plainMinimax ai d (simulateMove b mv.row mv.col ai) false)
            beta (orderMovesByPreference (getValidMoves b ai) b) ⊥ alpha
            bot_le hab
            (fun mv _ x hx =>
              ih (simulateMove b mv.row mv.col ai) ai false x beta hx)
          rw [hfold, max_eq_right bot_le] at j2 j3 j4
          exact ⟨j2, j3, j4⟩
        | false =>
          have hmoves' : ¬ (getValidMoves b (getOpponent ai)).length = 0 := by
            simpa using hmoves
          rw [minimax_minstep ai d b alpha beta h' hmoves',
            plainMinimax_minstep ai d b h' hmoves']
          have hfold : (((orderMovesByPreference
              (getValidMoves b (getOpponent ai)) b).map
              (fun mv =>
                plainMinimax ai d
                  (simulateMove b mv.row mv.col (getOpponent ai))
                  true)).foldr min ⊤)
              = (((getValidMoves b (getOpponent ai)).map (fun mv =>
                plainMinimax ai d
                  (simulateMove b mv.row mv.col (getOpponent ai))
                  true)).foldr min ⊤) :=
            foldr_min_perm
              ((sortDescBy_perm (fun mv => getMovePriority b mv)
                (getValidMoves b (getOpponent ai))).map _)
          obtain ⟨j1, j2, j3, j4⟩ := abMinLoop_km
            (fun mv bt =>
              minimax ai d (simulateMove b mv.row mv.col (getOpponent ai))
                alpha bt true)
            (fun mv =>
              plainMinimax ai d (simulateMove b mv.row mv.col (getOpponent ai))
                true)
            alpha (orderMovesByPreference (getValidMoves b (getOpponent ai)) b)
            ⊤ beta le_top hab
            (fun mv _ x hx =>
              ih (simulateMove b mv.row mv.col (getOpponent ai)) ai true
                alpha x hx)
          rw [hfold, min_eq_right le_top] at j2 j3 j4
          exact ⟨j3, j2, j4⟩

theorem minimax_eq_plainMinimax (ai : Player) (depth : Nat) (b : Board)
    (m : Bool) :
    minimax ai depth b ⊥ ⊤ m = plainMinimax ai depth b m := by
  obtain ⟨k1, k2, k3⟩ := minimax_km depth b ai m ⊥ ⊤ bot_lt_top
  by_cases h1 : minimax ai depth b ⊥ ⊤ m ≤ ⊥
  · have hr : minimax ai depth b ⊥ ⊤ m = ⊥ := le_bot_iff.mp h1
    have hv : plainMinimax ai depth b m = ⊥ := le_bot_iff.mp (hr ▸ k1 h1)
    rw [hr, hv]
  · by_cases h2 : (⊤ : Score) ≤ minimax ai depth b ⊥ ⊤ m
    · have hr : minimax ai depth b ⊥ ⊤ m = ⊤ := top_le_iff.mp h2
      have hv : plainMinimax ai depth b m = ⊤ := top_le_iff.mp (hr ▸ k2 h2)
      rw [hr, hv]
    · exact k3 (not_le.mp h1) (not_le.mp h2)

theorem bestLoop_spec (v : ValidMove → Score) :
    ∀ (l : List ValidMove) (best : Option (Int × Int)) (s : Score),
      bestLoop v l best s
        = match firstMaxBy v l with
          | none => best
          | some m => if s < v m then some (m.row, m.col) else best := by
  intro l
  induction l with
  | nil => intro best s; rfl
  | cons m rest ih =>
    intro best s
    unfold bestLoop
    by_cases hc : s < v m
    · rw [if_pos hc, ih]
      simp only [firstMaxBy]
      rcases hfm : firstMaxBy v rest with _ | y
      · simp [hc]
      · by_cases hk : v m < v y
        · have hsy : s < v y := lt_trans hc hk
          simp [hk, hsy]
        · simp [hk, hc]
    · rw [if_neg hc, ih]
      simp only [firstMaxBy]
      rcases hfm : firstMaxBy v rest with _ | y
      · simp [hc]
      · by_cases hk : v m < v y
        · simp [hk]
        · have hny : ¬ s < v y :=
            not_lt.mpr (le_trans (not_lt.mp hk) (not_lt.mp hc))
          simp [hk, hc, hny]

theorem bestLoop_congr (eval1 eval2 : ValidMove → Score) :
    ∀ (l : List ValidMove), (∀ m ∈ l, eval1 m = eval2 m) →
      ∀ (best : Option (Int × Int)) (s : Score),
        bestLoop eval1 l best s = bestLoop eval2 l best s := by
  intro l
  induction l with
  | nil => intro _ best s; rfl
  | cons m rest ih =>
    intro hagree best s
    unfold bestLoop
    rw [hagree m (List.mem_cons_self m rest)]
    by_cases hc : s < eval2 m
    · rw [if_pos hc, if_pos hc]
      exact ih (fun m' hm' => hagree m' (List.mem_cons_of_mem m hm')) _ _
    · rw [if_neg hc, if_neg hc]
      exact ih (fun m' hm' => hagree m' (List.mem_cons_of_mem m hm')) _ _

/-- Amended claim C6: with at least one legal move, the hard-difficulty
search returns exactly the first move, in the reordered candidate order of
`orderMovesByPreference`, attaining the maximal plain (unpruned, unordered)
depth-6 minimax value.  Alpha-beta pruning therefore never changes the
selected move or its value, and the choice is fully deterministic; the
reordering, however, determines which of several equal-valued moves is
selected, so the choice can differ from a plain minimax scanning the
unordered enumeration (see the counterexample). -/
theorem c6_minimax_selection (b : Board) (player : Player)
    (validMoves : List ValidMove) (h : validMoves ≠ []) :
    getMinimaxMove b player validMoves
      = minimaxSpecSelect b player validMoves := by
  simp only [getMinimaxMove, minimaxSpecSelect]
  have hcongr : bestLoop (fun m =>
      minimax player 5 (simulateMove b m.row m.col player) ⊥ ⊤ false)
      (orderMovesByPreference validMoves b) none ⊥
      = bestLoop (fun m =>
          plainMinimax player 5 (simulateMove b m.row m.col player) false)
          (orderMovesByPreference validMoves b) none ⊥ :=
    bestLoop_congr _ _ _
      (fun m _ => minimax_eq_plainMinimax player 5 _ false) _ _
  rw [hcongr, bestLoop_spec]
  have hne : orderMovesByPreference validMoves b ≠ [] := by
    intro hnil
    apply h
    have hperm := sortDescBy_perm (fun mv => getMovePriority b mv) validMoves
    unfold orderMovesByPreference at hnil
    rw [hnil] at hperm
    exact hperm.symm.eq_nil
  rcases hfm : firstMaxBy (fun m =>
      plainMinimax player 5 (simulateMove b m.row m.col player) false)
      (orderMovesByPreference validMoves b) with _ | m0
  · exact absurd ((firstMaxBy_eq_none_iff _ _).mp hfm) hne
  · rw [hfm]
    have hb := (plainMinimax_bounds 5
      (simulateMove b m0.row m0.col player) player false).1
    simp [hb]

/-- Witness for the amended C6 with a concrete non-empty move list. -/
theorem c6_minimax_selection_witness :
    ([(⟨2, 3, 1, [(3, 3)]⟩ : ValidMove)] : List ValidMove) ≠ [] ∧
    getMinimaxMove createInitialBoard Player.black
        [(⟨2, 3, 1, [(3, 3)]⟩ : ValidMove)]
      = minimaxSpecSelect createInitialBoard Player.black
          [(⟨2, 3, 1, [(3, 3)]⟩ : ValidMove)] :=
  ⟨by decide, c6_minimax_selection createInitialBoard Player.black
    [(⟨2, 3, 1, [(3, 3)]⟩ : ValidMove)] (by decide)⟩

/-- A near-full board refuting claim C6 as stated: black's only moves are
(2,2) and (7,7), both leading to an immediate win with the same score, so
the unordered plain minimax picks (2,2) (row-major first) while the
reordered pruned search picks the corner (7,7). -/
def exBoard : Board := fun i j =>
  if (i = 2 ∧ j = 2) ∨ (i = 7 ∧ j = 7) then none
  else if (i = 2 ∧ j = 3) ∨ (i = 7 ∧ j = 6) then some Player.white
  else some Player.black

/-- Counterexample to claim C6: on `exBoard` the hard-difficulty search
(`getMinimaxMove`) selects the corner (7,7), while a plain unpruned,
unordered depth-6 minimax over the same rules (`plainMinimaxMove`) selects
(2,2) — the two agree on the value but tie-break differently, so the
selected moves differ. -/
theorem c6_counterexample :
    getValidMoves exBoard Player.black ≠ [] ∧
    getMinimaxMove exBoard Player.black (getValidMoves exBoard Player.black)
      = some (7, 7) ∧
    plainMinimaxMove exBoard Player.black = some (2, 2) ∧
    (some ((7 : Int), (7 : Int)) : Option (Int × Int)) ≠ some (2, 2) := by
  refine ⟨by decide, by decide, by decide, by decide⟩
